import Mathlib

/-!
Verification development for the timer-app repository (src/app.py).

The file shallowly embeds the core logic of `app.py`:
  * the Gregorian → Jalali calendar conversion (`gregorian_to_jalali`),
  * the duration formatters `fmt_hm` / `fmt_hms` and the tolerant parser
    `parse_duration_to_seconds` (with Persian-digit transliteration),
  * the per-day log-file model, `write_line`, `compute_total_seconds_for_file`
    and the daily summary writer `write_daily_summary_for`,
  * the midnight-splitting session logger `log_session_range`.

Mutable state is embedded by explicit state passing: a log file is an
`Option (List String)` (`none` = the file does not exist; each list entry is
one line without its trailing newline — `write_line` writes
`text.rstrip('\n') + '\n'`, so a file written by the program is exactly a
newline-terminated sequence of such lines, and the parser is insensitive to a
trailing newline on a line).  Machine integers do not occur (Python ints are
unbounded); `datetime` values are embedded as a calendar date plus the
microseconds elapsed since local midnight.  Python `//` and `%` are `Int.fdiv`
and `Int.emod`; `int()` applied to `timedelta.total_seconds()` truncates
toward zero, which is `Int.tdiv` of the microsecond count by 10^6.
-/

set_option linter.unusedVariables false

namespace TimerApp

/-! ## Python string primitives -/

/-- Whitespace as recognised by Python `str.split()` / `str.strip()`. -/
def pyIsSpace (c : Char) : Bool :=
  c = ' ' || c = '\t' || c = '\n' || c = '\r' || c = '\x0b' || c = '\x0c'

/-- Python `str.strip()` on a character list: drop whitespace from both ends. -/
def pyStripL (l : List Char) : List Char :=
  ((l.dropWhile pyIsSpace).reverse.dropWhile pyIsSpace).reverse

/-- Python `str.strip()` on strings. -/
def pyStrip (s : String) : String := String.mk (pyStripL s.data)

/-- Python `str.rstrip('\n')`: drop trailing newline characters. -/
def pyRstripNewlineL (l : List Char) : List Char :=
  (l.reverse.dropWhile (fun c => c = '\n')).reverse

/-- The check `p` is an initial run of `l` (substring search helper). -/
def leadsWith : List Char → List Char → Bool
  | [], _ => true
  | _ :: _, [] => false
  | p :: ps, c :: cs => p = c && leadsWith ps cs

/-- Python substring containment `needle in haystack`, on character lists. -/
def hasSub (needle : List Char) : List Char → Bool
  | [] => needle.isEmpty
  | c :: rest => leadsWith needle (c :: rest) || hasSub needle rest

/-- Python substring containment on strings. -/
def pyContains (needle hay : String) : Bool := hasSub needle.data hay.data

/-- Python `s.split(sep)` for the non-empty separator `s0 :: srest`, by fuelled
    structural recursion; `fuel ≥ l.length` makes the fuel-exhaustion branch
    unreachable.  Splits at each leftmost non-overlapping occurrence. -/
def splitSepCore (s0 : Char) (srest : List Char) : Nat → List Char → List (List Char)
  | _, [] => [[]]
  | 0, l => [l]
  | fuel + 1, c :: rest =>
    if leadsWith (s0 :: srest) (c :: rest) then
      [] :: splitSepCore s0 srest fuel (rest.drop srest.length)
    else
      let ps := splitSepCore s0 srest fuel rest
      (c :: ps.headD []) :: ps.tail

/-- Python `s.split(sep)` with separator `s0 :: srest`. -/
def pySplitSep (s0 : Char) (srest : List Char) (l : List Char) : List (List Char) :=
  splitSepCore s0 srest l.length l

/-- Python `seg.split()[0]` as an `Option`: the first maximal non-whitespace
    run; `none` when there is no token (the `IndexError` the source catches). -/
def firstWord (l : List Char) : Option (List Char) :=
  let w := (l.dropWhile pyIsSpace).takeWhile (fun c => !pyIsSpace c)
  if w.isEmpty then none else some w

/-! ## Decimal digits and Python `str` / `int` on numbers -/

/-- The ten ASCII decimal digit characters. -/
def digitList : List Char := ['0', '1', '2', '3', '4', '5', '6', '7', '8', '9']

/-- The decimal digit character for `n < 10` (as produced by Python `str`). -/
def digitChar (n : Nat) : Char := digitList.getD n '9'

/-- Fuelled most-significant-first decimal expansion; `fuel ≥ n + 1` suffices. -/
def natDigitsCore : Nat → Nat → List Char → List Char
  | 0, _, acc => acc
  | fuel + 1, n, acc =>
    if n < 10 then digitChar n :: acc
    else natDigitsCore fuel (n / 10) (digitChar (n % 10) :: acc)

/-- Python `str(n)` for a natural number, as a character list. -/
def pyStrNat (n : Nat) : List Char := natDigitsCore (n + 1) n []

/-- Python `str(i)` for an integer, as a character list. -/
def pyStrInt (i : Int) : List Char :=
  if i < 0 then '-' :: pyStrNat (-i).toNat else pyStrNat i.toNat

/-- Python f-string field `{m:02d}`: zero-pad to width two. -/
def pad2 (i : Int) : List Char :=
  if 0 ≤ i ∧ i < 10 then '0' :: pyStrInt i else pyStrInt i

/-- The source's `PERSIAN_DIGITS` translation table
    (`str.maketrans("0123456789", "۰۱۲۳۴۵۶۷۸۹")`), applied to one character. -/
def persianOfAscii (c : Char) : Char :=
  if c = '0' then '۰' else if c = '1' then '۱' else if c = '2' then '۲'
  else if c = '3' then '۳' else if c = '4' then '۴' else if c = '5' then '۵'
  else if c = '6' then '۶' else if c = '7' then '۷' else if c = '8' then '۸'
  else if c = '9' then '۹' else c

/-- Python `s.translate(PERSIAN_DIGITS)`. -/
def toPersianDigits (s : String) : String := String.mk (s.data.map persianOfAscii)

/-- One character step of `_to_ascii_digits`: a Persian digit `۰`..`۹` becomes
    `str(ord(ch) - 1776)` (a single ASCII digit), anything else is kept. -/
def asciiChunk (ch : Char) : List Char :=
  if '۰' ≤ ch ∧ ch ≤ '۹' then pyStrNat (ch.toNat - 1776) else [ch]

/-- The source's `_to_ascii_digits`, on character lists. -/
def toAsciiDigits (l : List Char) : List Char := (l.map asciiChunk).flatten

/-- The source's `_to_ascii_digits`, on strings. -/
def to_ascii_digits (s : String) : String := String.mk (toAsciiDigits s.data)

/-- The numeric value of an ASCII decimal digit character. -/
def digitVal (c : Char) : Option Nat :=
  if '0' ≤ c ∧ c ≤ '9' then some (c.toNat - 48) else none

/-- Digit-with-underscores automaton of Python `int()`: underscores are only
    allowed between digits; `acc` is the value accumulated so far. -/
def digitsCore : List Char → Nat → Option Nat
  | [], acc => some acc
  | c :: rest, acc =>
    if c = '_' then
      match rest with
      | [] => none
      | c2 :: rest2 =>
        match digitVal c2 with
        | some d => digitsCore rest2 (acc * 10 + d)
        | none => none
    else
      match digitVal c with
      | some d => digitsCore rest (acc * 10 + d)
      | none => none

/-- Unsigned part of Python `int()`: a non-empty digit string, underscores
    allowed between digits. -/
def pyIntOfDigits : List Char → Option Nat
  | [] => none
  | c :: rest =>
    match digitVal c with
    | some d => digitsCore rest d
    | none => none

/-- Sign handling of Python `int(string)` after whitespace stripping. -/
def pyIntSigned : List Char → Option Int
  | [] => none
  | c :: rest =>
    if c = '+' then (pyIntOfDigits rest).map (fun n => (n : Int))
    else if c = '-' then (pyIntOfDigits rest).map (fun n => -(n : Int))
    else (pyIntOfDigits (c :: rest)).map (fun n => (n : Int))

/-- Python `int(string)`: optional surrounding whitespace, optional sign,
    decimal digits.  `none` models the `ValueError` the source catches. -/
def pyInt (l : List Char) : Option Int := pyIntSigned (pyStripL l)

/-! ## The duration parser and formatters -/

/-- The duration marker `مدت:` that precedes a duration token in segment lines. -/
def durMarker : List Char := ("مدت:" : String).data

/-- Python `line.split('مدت:')`. -/
def splitAtMarker (l : List Char) : List (List Char) :=
  pySplitSep 'م' (("دت:" : String).data) l

/-- The field branch of `parse_duration_to_seconds`: three fields `H:M:S`, two
    fields `H:M` (legacy, seconds zero); `none` is an exception raised by
    `int()` inside the `try`, `some 0` the fall-through `return 0` for any
    other field count. -/
def parseFields : List (List Char) → Option Int
  | [a, b, c] =>
    match pyInt a, pyInt b, pyInt c with
    | some h, some m, some s => some (h * 3600 + m * 60 + s)
    | _, _, _ => none
  | [a, b] =>
    match pyInt a, pyInt b with
    | some h, some m => some (h * 3600 + m * 60)
    | _, _ => none
  | _ => some 0

/-- The try-block of `parse_duration_to_seconds`:
    `seg = line.split('مدت:')[1].strip(); token = seg.split()[0];`
    then transliterate digits and split the token on `':'`.
    `none` models a raised-and-caught exception. -/
def parseTry (l : List Char) : Option Int :=
  let seg := (splitAtMarker l).getD 1 []
  match firstWord (pyStripL seg) with
  | none => none
  | some token => parseFields (pySplitSep ':' [] (toAsciiDigits token))

/-- The source's `parse_duration_to_seconds`: returns 0 when the marker is
    absent, otherwise runs the try-block and maps any exception to 0. -/
def parse_duration_to_seconds (line : String) : Int :=
  if hasSub durMarker line.data then
    match parseTry line.data with
    | some v => v
    | none => 0
  else 0

/-- The source's `fmt_hms(td, fa)`; the timedelta is given in microseconds.
    `int(td.total_seconds())` truncates toward zero (`Int.tdiv` by 10^6);
    `h = ts // 3600`, `m = (ts % 3600) // 60`, `s = ts % 60` use Python
    floor-division and nonnegative remainder (`Int.fdiv` / `Int.emod`). -/
def fmt_hms (tdUsec : Int) (fa : Bool) : String :=
  let totalSeconds := tdUsec.tdiv 1000000
  let h := totalSeconds.fdiv 3600
  let m := (totalSeconds.emod 3600).fdiv 60
  let s := totalSeconds.emod 60
  let out := pyStrInt h ++ ':' :: pad2 m ++ ':' :: pad2 s
  if fa then String.mk (out.map persianOfAscii) else String.mk out

/-- The source's `fmt_hm(td, fa)`: legacy `H:MM`;
    `total_minutes = int(td.total_seconds() // 60)` is floor division. -/
def fmt_hm (tdUsec : Int) (fa : Bool) : String :=
  let totalMinutes := tdUsec.fdiv 60000000
  let h := totalMinutes.fdiv 60
  let m := totalMinutes.emod 60
  let out := pyStrInt h ++ ':' :: pad2 m
  if fa then String.mk (out.map persianOfAscii) else String.mk out

/-- A line consisting of the duration marker, one space, and a duration token —
    the shape in which every formatted duration appears in a log line. -/
def marker_line (tok : String) : String := "مدت: " ++ tok

/-! ## The Gregorian and Jalali calendars -/

/-- The source's `g_days_in_month` (non-leap Gregorian month lengths). -/
def g_days_in_month : List Int := [31, 28, 31, 30, 31, 30, 31, 31, 30, 31, 30, 31]

/-- The source's `j_days_in_month` (Jalali month lengths, last month non-leap). -/
def j_days_in_month : List Int := [31, 31, 31, 31, 31, 31, 30, 30, 30, 30, 30, 29]

/-- Sum of the first `n` entries of an integer list
    (`for i in range(n): total += l[i]`). -/
def sumFirst (l : List Int) (n : Nat) : Int := (l.take n).sum

/-- The Gregorian leap-year test used by the source:
    `(y % 4 == 0 and y % 100 != 0) or (y % 400 == 0)`. -/
def isLeapG (y : Int) : Bool :=
  (y.emod 4 == 0 && y.emod 100 != 0) || y.emod 400 == 0

/-- The month-decomposition loop of `gregorian_to_jalali`
    (`for i in range(11): ... else: jm = 12; jd = j_day_no + 1`):
    `i` is the 0-based index of the current month, `months` the remaining
    month-length table entries (eleven at the start). -/
def jMonthLoop : Int → List Int → Nat → Int × Int
  | jdn, [], _ => (12, jdn + 1)
  | jdn, days :: rest, i =>
    if jdn < days then ((i : Int) + 1, jdn + 1)
    else jMonthLoop (jdn - days) rest (i + 1)

/-- The source's `gregorian_to_jalali(g_y, g_m, g_d)`. -/
def gregorian_to_jalali (g_y g_m g_d : Int) : Int × Int × Int :=
  let gy := g_y - 1600
  let gm := g_m - 1
  let gd := g_d - 1
  let g_day_no := 365 * gy + (gy + 3).fdiv 4 - (gy + 99).fdiv 100 + (gy + 399).fdiv 400
  let g_day_no := g_day_no + sumFirst g_days_in_month gm.toNat
  let g_day_no := if 1 < gm ∧ isLeapG g_y then g_day_no + 1 else g_day_no
  let g_day_no := g_day_no + gd
  let j_day_no := g_day_no - 79
  let j_np := j_day_no.fdiv 12053
  let j_day_no := j_day_no.emod 12053
  let jy := 979 + 33 * j_np + 4 * (j_day_no.fdiv 1461)
  let j_day_no := j_day_no.emod 1461
  let jy := if 366 ≤ j_day_no then jy + (j_day_no - 1).fdiv 365 else jy
  let j_day_no := if 366 ≤ j_day_no then (j_day_no - 1).emod 365 else j_day_no
  let md := jMonthLoop j_day_no (j_days_in_month.take 11) 0
  (jy, md.1, md.2)

/-- The source's `PERSIAN_WEEKDAYS` (index 0 = Monday, Python weekday()). -/
def PERSIAN_WEEKDAYS : List String :=
  ["دوشنبه", "سه‌شنبه", "چهارشنبه", "پنجشنبه", "جمعه", "شنبه", "یکشنبه"]

/-- The source's `PERSIAN_MONTHS`. -/
def PERSIAN_MONTHS : List String :=
  ["فروردین", "اردیبهشت", "خرداد", "تیر", "مرداد", "شهریور",
   "مهر", "آبان", "آذر", "دی", "بهمن", "اسفند"]

/-! ## Dates (`datetime.date`) -/

/-- A Python `datetime.date`: a year/month/day triple.  The `date` constructor
    only admits valid dates; validity is the separate predicate `ValidDate`
    carried as a hypothesis where proofs need it. -/
structure PyDate where
  year : Int
  month : Int
  day : Int
  deriving DecidableEq, Repr

/-- Length of a Gregorian month (`g_days_in_month` with the leap-February
    correction). -/
def daysInMonthG (y m : Int) : Int :=
  if m = 2 ∧ isLeapG y then 29 else g_days_in_month.getD (m - 1).toNat 31

/-- Validity of a `PyDate` as enforced by the Python `date` constructor
    (the year-9999 upper bound is not modelled). -/
def ValidDate (d : PyDate) : Prop :=
  1 ≤ d.year ∧ 1 ≤ d.month ∧ d.month ≤ 12 ∧ 1 ≤ d.day ∧ d.day ≤ daysInMonthG d.year d.month

instance (d : PyDate) : Decidable (ValidDate d) := by
  unfold ValidDate; infer_instance

/-- Days in the years before year `y` (CPython `_days_before_year`). -/
def daysBeforeYear (y : Int) : Int :=
  365 * (y - 1) + (y - 1).fdiv 4 - (y - 1).fdiv 100 + (y - 1).fdiv 400

/-- Days in the months of year `y` before month `m`
    (CPython `_days_before_month`). -/
def daysBeforeMonth (y m : Int) : Int :=
  sumFirst g_days_in_month (m - 1).toNat + (if 2 < m ∧ isLeapG y then 1 else 0)

/-- The proleptic-Gregorian ordinal of a date (Python `date.toordinal`,
    0001-01-01 ↦ 1).  Day arithmetic and `datetime` comparison go through
    this day number. -/
def dateOrd (d : PyDate) : Int :=
  daysBeforeYear d.year + daysBeforeMonth d.year d.month + d.day

/-- The calendar successor of a date (`date + timedelta(days=1)`). -/
def nextDate (d : PyDate) : PyDate :=
  if d.day < daysInMonthG d.year d.month then ⟨d.year, d.month, d.day + 1⟩
  else if d.month < 12 then ⟨d.year, d.month + 1, 1⟩
  else ⟨d.year + 1, 1, 1⟩

/-- Python `date.weekday()` (0 = Monday): 0001-01-01 is a Monday. -/
def pyWeekday (d : PyDate) : Nat := ((dateOrd d - 1).emod 7).toNat

/-- The source's `persian_weekday_name`. -/
def persian_weekday_name (d : PyDate) : String :=
  PERSIAN_WEEKDAYS.getD (pyWeekday d) ""

/-- The source's `persian_date_str(date_greg, use_persian_digits=True)`:
    localized weekday, Jalali day-of-month and Jalali month name, with all
    ASCII digits transliterated. -/
def persian_date_str (d : PyDate) : String :=
  let jmd := gregorian_to_jalali d.year d.month d.day
  let s := persian_weekday_name d ++ " " ++ String.mk (pyStrInt jmd.2.2) ++ " "
    ++ PERSIAN_MONTHS.getD (jmd.2.1 - 1).toNat ""
  toPersianDigits s

/-! ## The per-day log file and the daily summary engine

A log file is `Option (List String)`: `none` when the file does not exist,
otherwise its lines (each without its trailing newline).  `write_line` appends
`text.rstrip('\n') + '\n'`, creating the file if needed, so this is exactly
the state written by the program; the parser's result on a line is unchanged
by a trailing newline (the marker test and whitespace tokenisation ignore it).
The file for a date is `today_log_path(date)`; distinct dates give distinct
ISO-named paths, so state is keyed directly by the date. -/

/-- A log file's contents, `none` when the file does not exist. -/
abbrev LogFile := Option (List String)

/-- The source's `write_line(text, path)`: append `text.rstrip('\n')` as one
    newline-terminated line, creating the file when absent. -/
def write_line (text : String) (file : LogFile) : LogFile :=
  some (file.getD [] ++ [String.mk (pyRstripNewlineL text.data)])

/-- The source's `compute_total_seconds_for_file`: 0 for a missing file, else
    the sum of `parse_duration_to_seconds` over every line. -/
def compute_total_seconds_for_file (file : LogFile) : Int :=
  match file with
  | none => 0
  | some lines => (lines.map parse_duration_to_seconds).sum

/-- The last-non-empty-line computation of `write_daily_summary_for`:
    `lines = [ln.strip() for ln in f.readlines() if ln.strip()]`, then
    `lines[-1]` if any, else the initial `''` (also for a missing file). -/
def last_nonempty_line (file : LogFile) : String :=
  match file with
  | none => ""
  | some lines => (((lines.map pyStrip).filter (fun x => x ≠ "")).getLastD "")

/-- The summary marker word. -/
def sumMarker : String := "مجموع"

/-- The summary text written by `write_daily_summary_for`:
    `f"{date_str} — {total_str} مجموع"` with `total_str = fmt_hms(total_td)`
    and `total_td = timedelta(seconds=total_seconds)`. -/
def summary_line (date_obj : PyDate) (total_seconds : Int) : String :=
  persian_date_str date_obj ++ " — " ++ fmt_hms (total_seconds * 1000000) true ++ " مجموع"

/-- The source's `write_daily_summary_for(date_obj)`, with the file state of
    `today_log_path(date_obj)` passed and returned explicitly. -/
def write_daily_summary_for (date_obj : PyDate) (file : LogFile) : LogFile :=
  let total_seconds := compute_total_seconds_for_file file
  let last_line := last_nonempty_line file
  if pyContains sumMarker last_line then file
  else write_line (summary_line date_obj total_seconds) file

/-! ## Datetimes and the session logger

A `datetime` is a valid date plus the number of microseconds since local
midnight.  Python compares datetimes chronologically (field-lexicographically,
which on valid dates is the lexicographic order on (ordinal, time)); both
comparison and subtraction are embedded through `dateOrd`. -/

/-- A Python `datetime`: a date and the time of day in microseconds. -/
structure PyDT where
  date : PyDate
  tod : Int
  deriving DecidableEq, Repr

/-- Validity of a `PyDT` (valid date, time of day within one day). -/
def ValidDT (t : PyDT) : Prop :=
  ValidDate t.date ∧ 0 ≤ t.tod ∧ t.tod < 86400000000

instance (t : PyDT) : Decidable (ValidDT t) := by
  unfold ValidDT; infer_instance

/-- Chronological strict order on datetimes. -/
def dtLt (a b : PyDT) : Prop :=
  dateOrd a.date < dateOrd b.date ∨ (dateOrd a.date = dateOrd b.date ∧ a.tod < b.tod)

/-- Chronological order on datetimes. -/
def dtLe (a b : PyDT) : Prop :=
  dateOrd a.date < dateOrd b.date ∨ (dateOrd a.date = dateOrd b.date ∧ a.tod ≤ b.tod)

instance (a b : PyDT) : Decidable (dtLt a b) := by unfold dtLt; infer_instance

instance (a b : PyDT) : Decidable (dtLe a b) := by unfold dtLe; infer_instance

/-- Python `min(end_dt, next_midnight)` (returns the first argument on ties). -/
def pyMinDT (a b : PyDT) : PyDT := if dtLt b a then b else a

/-- Python datetime subtraction `b - a`, as a timedelta in microseconds. -/
def dtSubUsec (b a : PyDT) : Int :=
  (dateOrd b.date - dateOrd a.date) * 86400000000 + (b.tod - a.tod)

/-- The duration written by `_log_single_segment`:
    `duration = end_dt - start_dt`, rounded up to one second when
    `duration.total_seconds() < 1` (in particular for empty or negative
    intervals), in microseconds. -/
def flooredDurationUsec (start_dt end_dt : PyDT) : Int :=
  let duration := dtSubUsec end_dt start_dt
  if duration < 1000000 then 1000000 else duration

/-- Python `strftime('%H:%M:%S')` of a time of day given in microseconds. -/
def fmtTimeHMS (tod : Int) : String :=
  let secs := tod.fdiv 1000000
  String.mk (pad2 (secs.fdiv 3600) ++ ':' :: pad2 ((secs.emod 3600).fdiv 60)
    ++ ':' :: pad2 (secs.emod 60))

/-- The line text written by `_log_single_segment`:
    `f"از {start_str} تا {end_str} — مدت: {dur_str}"` with the time strings
    digit-transliterated and the duration formatted by `fmt_hms`. -/
def segment_line (start_dt end_dt : PyDT) : String :=
  "از " ++ toPersianDigits (fmtTimeHMS start_dt.tod) ++ " تا "
    ++ toPersianDigits (fmtTimeHMS end_dt.tod) ++ " — "
    ++ marker_line (fmt_hms (flooredDurationUsec start_dt end_dt) true)

/-- The source's `_log_single_segment(start_dt, end_dt)`: one write of the
    segment line to the file of `start_dt.date()` (`today_log_path`), given as
    the target date paired with the appended line. -/
def _log_single_segment (start_dt end_dt : PyDT) : PyDate × String :=
  (start_dt.date, segment_line start_dt end_dt)

/-- The `(cur + timedelta(days=1)).replace(hour=0, minute=0, second=0,
    microsecond=0)` step of the loop: midnight at the start of the next day. -/
def nextMidnightAfter (cur : PyDT) : PyDT := ⟨nextDate cur.date, 0⟩

/-- The `while True` loop of `log_session_range` as a fuelled recursion over
    its cursor, returning the `(cur, end_segment)` pairs passed to
    `_log_single_segment` in order.  Each iteration clips at the next
    midnight, emits a segment, breaks when `end_segment >= end_dt`, else
    advances the cursor to `end_segment`.  The fuel-exhaustion branch returns
    `[]`; with the fuel of `log_session_segments` it is unreachable for valid
    datetimes (the termination lemmas below). -/
def segmentsAux (end_dt : PyDT) : Nat → PyDT → List (PyDT × PyDT)
  | 0, _ => []
  | fuel + 1, cur =>
    let next_midnight := nextMidnightAfter cur
    let end_segment := pyMinDT end_dt next_midnight
    if dtLe end_dt end_segment then [(cur, end_segment)]
    else (cur, end_segment) :: segmentsAux end_dt fuel end_segment

/-- Fuel sufficient for the loop: one iteration per calendar day touched. -/
def log_session_fuel (start_dt end_dt : PyDT) : Nat :=
  (dateOrd end_dt.date - dateOrd start_dt.date).toNat + 1

/-- The segments `(cur, end_segment)` produced by `log_session_range`. -/
def log_session_segments (start_dt end_dt : PyDT) : List (PyDT × PyDT) :=
  segmentsAux end_dt (log_session_fuel start_dt end_dt) start_dt

/-- The source's `log_session_range(start_dt, end_dt)`: the ordered list of
    (target-date, line) writes it performs. -/
def log_session_range (start_dt end_dt : PyDT) : List (PyDate × String) :=
  (log_session_segments start_dt end_dt).map (fun p => _log_single_segment p.1 p.2)

/-- The lines appended to the log file of day `d` by a list of writes. -/
def linesWrittenFor (writes : List (PyDate × String)) (d : PyDate) : List String :=
  (writes.filter (fun w => w.1 = d)).map (fun w => w.2)

/-- The number of local midnights lying strictly between two datetimes: the
    midnight of ordinal `k` is strictly above `s` iff `dateOrd s.date < k`
    and strictly below `e` iff `k < dateOrd e.date`, or `k = dateOrd e.date`
    with `0 < e.tod`; hence the count below, clamped at zero. -/
def countMidnightsBetween (s e : PyDT) : Nat :=
  ((if 0 < e.tod then dateOrd e.date else dateOrd e.date - 1) - dateOrd s.date).toNat

/-! ## Lemmas: decimal digit strings and Python `int` -/

/-- Recursive (unfuelled) decimal expansion, for reasoning about `pyStrNat`. -/
def digitsRec (n : Nat) : List Char :=
  if n < 10 then [digitChar n]
  else digitsRec (n / 10) ++ [digitChar (n % 10)]
termination_by n
decreasing_by exact Nat.div_lt_self (by omega) (by norm_num)

theorem natDigitsCore_eq : ∀ (fuel n : Nat) (acc : List Char), n < fuel →
    natDigitsCore fuel n acc = digitsRec n ++ acc := by
  intro fuel
  induction fuel with
  | zero => omega
  | succ f ih =>
    intro n acc h
    rw [natDigitsCore, digitsRec]
    by_cases h10 : n < 10
    · simp [h10]
    · have hdiv : n / 10 < n := Nat.div_lt_self (by omega) (by norm_num)
      simp only [h10, if_false]
      rw [ih _ _ (by omega), List.append_assoc]
      simp

theorem pyStrNat_eq (n : Nat) : pyStrNat n = digitsRec n := by
  rw [pyStrNat, natDigitsCore_eq _ _ _ (by omega), List.append_nil]

theorem digitChar_mem (n : Nat) : digitChar n ∈ digitList := by
  rw [digitChar]
  by_cases h : n < digitList.length
  · exact List.getD_eq_getElem digitList '9' h ▸ digitList.getElem_mem h
  · rw [List.getD_eq_default digitList '9' (by omega)]; decide

theorem digitsRec_mem : ∀ n c, c ∈ digitsRec n → c ∈ digitList := by
  intro n
  induction n using digitsRec.induct with
  | case1 n h =>
    intro c hc
    rw [digitsRec, if_pos h] at hc
    simp at hc
    exact hc ▸ digitChar_mem n
  | case2 n h ih =>
    intro c hc
    rw [digitsRec, if_neg h] at hc
    rcases List.mem_append.mp hc with h1 | h1
    · exact ih c h1
    · simp at h1
      exact h1 ▸ digitChar_mem (n % 10)

theorem digitsRec_ne_nil (n : Nat) : digitsRec n ≠ [] := by
  rw [digitsRec]
  split <;> simp

/-- The folding step that accumulates a decimal value. -/
def accDigit (a : Nat) (c : Char) : Nat := a * 10 + (c.toNat - 48)

theorem digitVal_of_mem (c : Char) (h : c ∈ digitList) :
    digitVal c = some (c.toNat - 48) := by
  fin_cases h <;> decide

theorem digit_not_underscore (c : Char) (h : c ∈ digitList) : c ≠ '_' := by
  fin_cases h <;> decide

theorem digit_not_space (c : Char) (h : c ∈ digitList) : pyIsSpace c = false := by
  fin_cases h <;> decide

theorem digit_not_sign (c : Char) (h : c ∈ digitList) : c ≠ '+' ∧ c ≠ '-' := by
  fin_cases h <;> decide

theorem digitChar_val (n : Nat) (h : n < 10) : (digitChar n).toNat - 48 = n := by
  revert n
  decide

theorem digitsCore_cons_digit (c : Char) (rest : List Char) (acc : Nat)
    (hc : c ∈ digitList) :
    digitsCore (c :: rest) acc = digitsCore rest (accDigit acc c) := by
  rw [digitsCore.eq_def]
  dsimp only
  rw [if_neg (digit_not_underscore c hc), digitVal_of_mem c hc]
  rfl

theorem digitsCore_all_digits : ∀ (l : List Char) (acc : Nat),
    (∀ c ∈ l, c ∈ digitList) → digitsCore l acc = some (l.foldl accDigit acc) := by
  intro l
  induction l with
  | nil => intro acc _; rfl
  | cons c rest ih =>
    intro acc hall
    have hc := hall c (by simp)
    have hrest : ∀ x ∈ rest, x ∈ digitList := fun x hx => hall x (List.mem_cons_of_mem c hx)
    rw [digitsCore_cons_digit c rest acc hc, ih _ hrest, List.foldl_cons]

theorem pyIntOfDigits_all_digits (l : List Char) (hne : l ≠ [])
    (hall : ∀ c ∈ l, c ∈ digitList) :
    pyIntOfDigits l = some (l.foldl accDigit 0) := by
  match l with
  | [] => exact absurd rfl hne
  | c :: rest =>
    have hc := hall c (by simp)
    have hrest : ∀ x ∈ rest, x ∈ digitList := fun x hx => hall x (List.mem_cons_of_mem c hx)
    rw [pyIntOfDigits.eq_def]
    dsimp only
    rw [digitVal_of_mem c hc]
    dsimp only
    rw [digitsCore_all_digits _ _ hrest, List.foldl_cons]
    have : accDigit 0 c = c.toNat - 48 := by simp [accDigit]
    rw [this]

theorem digitsRec_foldl (n : Nat) : (digitsRec n).foldl accDigit 0 = n := by
  induction n using digitsRec.induct with
  | case1 n h =>
    rw [digitsRec, if_pos h]
    simp [List.foldl_cons, accDigit, digitChar_val n h]
  | case2 n h ih =>
    rw [digitsRec, if_neg h]
    rw [List.foldl_append, ih]
    simp [List.foldl_cons, accDigit, digitChar_val (n % 10) (Nat.mod_lt n (by norm_num))]
    omega

theorem dropWhile_eq_self_of_all {p : Char → Bool} {l : List Char}
    (h : ∀ c ∈ l, p c = false) : l.dropWhile p = l := by
  cases l with
  | nil => rfl
  | cons c rest => rw [List.dropWhile_cons, h c (by simp)]; simp

theorem pyStripL_eq_self_of_all {l : List Char}
    (h : ∀ c ∈ l, pyIsSpace c = false) : pyStripL l = l := by
  rw [pyStripL, dropWhile_eq_self_of_all h,
    dropWhile_eq_self_of_all (fun c hc => h c (List.mem_reverse.mp hc)), List.reverse_reverse]

theorem pyInt_all_digits (l : List Char) (hne : l ≠ [])
    (hall : ∀ c ∈ l, c ∈ digitList) :
    pyInt l = some ((l.foldl accDigit 0 : Nat) : Int) := by
  have hs : pyStripL l = l :=
    pyStripL_eq_self_of_all (fun c hc => digit_not_space c (hall c hc))
  rw [pyInt, hs]
  match l, hne, hall with
  | c :: rest, _, hall =>
    have hc := hall c (by simp)
    simp only [pyIntSigned, if_neg (digit_not_sign c hc).1, if_neg (digit_not_sign c hc).2,
      pyIntOfDigits_all_digits _ (by simp) hall]
    rfl

theorem pyStrNat_mem (n : Nat) : ∀ c ∈ pyStrNat n, c ∈ digitList := by
  rw [pyStrNat_eq]; exact digitsRec_mem n

theorem pyStrNat_ne_nil (n : Nat) : pyStrNat n ≠ [] := by
  rw [pyStrNat_eq]; exact digitsRec_ne_nil n

theorem pyInt_pyStrNat (n : Nat) : pyInt (pyStrNat n) = some (n : Int) := by
  rw [pyStrNat_eq, pyInt_all_digits _ (digitsRec_ne_nil n) (digitsRec_mem n),
    digitsRec_foldl]

theorem pyStrInt_nonneg (i : Int) (h : 0 ≤ i) : pyStrInt i = pyStrNat i.toNat := by
  rw [pyStrInt, if_neg (by omega)]

theorem pyInt_pyStrInt (i : Int) (h : 0 ≤ i) : pyInt (pyStrInt i) = some i := by
  rw [pyStrInt_nonneg i h, pyInt_pyStrNat, Int.toNat_of_nonneg h]

theorem pyIntOfDigits_pyStrNat (n : Nat) : pyIntOfDigits (pyStrNat n) = some n := by
  rw [pyStrNat_eq,
    pyIntOfDigits_all_digits _ (digitsRec_ne_nil n) (digitsRec_mem n), digitsRec_foldl]

theorem pyInt_pyStrInt_any (i : Int) : pyInt (pyStrInt i) = some i := by
  by_cases h : 0 ≤ i
  · exact pyInt_pyStrInt i h
  · have hneg : i < 0 := by omega
    have hform : pyStrInt i = '-' :: pyStrNat (-i).toNat := by
      rw [pyStrInt, if_pos hneg]
    rw [pyInt, hform]
    have hstrip : pyStripL ('-' :: pyStrNat (-i).toNat) = '-' :: pyStrNat (-i).toNat := by
      apply pyStripL_eq_self_of_all
      intro c hc
      rcases List.mem_cons.mp hc with rfl | hc
      · decide
      · exact digit_not_space c (pyStrNat_mem _ c hc)
    rw [hstrip]
    rw [pyIntSigned.eq_def]
    dsimp only
    rw [if_neg (by decide), if_pos rfl, pyIntOfDigits_pyStrNat]
    simp
    omega

theorem pad2_eq (i : Int) (h : 0 ≤ i) :
    pad2 i = if i < 10 then '0' :: pyStrNat i.toNat else pyStrNat i.toNat := by
  rw [pad2, pyStrInt_nonneg i h]
  by_cases h10 : i < 10 <;> simp [h10, h]

theorem pad2_mem (i : Int) (h : 0 ≤ i) : ∀ c ∈ pad2 i, c ∈ digitList := by
  rw [pad2_eq i h]
  split <;> intro c hc
  · rcases List.mem_cons.mp hc with rfl | hc
    · decide
    · exact pyStrNat_mem _ c hc
  · exact pyStrNat_mem _ c hc

theorem pyInt_pad2 (i : Int) (h0 : 0 ≤ i) : pyInt (pad2 i) = some i := by
  rw [pad2_eq i h0]
  by_cases h10 : i < 10
  · rw [if_pos h10, pyInt_all_digits _ (by simp)]
    · rw [List.foldl_cons]
      have : accDigit 0 '0' = 0 := by decide
      rw [this, pyStrNat_eq, digitsRec_foldl, Int.toNat_of_nonneg h0]
    · intro c hc
      rcases List.mem_cons.mp hc with rfl | hc
      · decide
      · exact pyStrNat_mem _ c hc
  · rw [if_neg h10, pyInt_pyStrNat, Int.toNat_of_nonneg h0]

/-! ## Lemmas: the digit transliteration round trip -/

theorem char_le_iff_toNat (a b : Char) : a ≤ b ↔ a.toNat ≤ b.toNat := by
  rw [Char.le_def, UInt32.le_def, BitVec.le_def]
  rfl

/-- The ten Persian digit characters, images of `0`..`9` under the table. -/
def persianDigitList : List Char := ['۰', '۱', '۲', '۳', '۴', '۵', '۶', '۷', '۸', '۹']

theorem persianOfAscii_cases (c : Char) :
    persianOfAscii c ∈ persianDigitList ∨ persianOfAscii c = c := by
  unfold persianOfAscii
  split_ifs with h0 h1 h2 h3 h4 h5 h6 h7 h8 h9 <;> first | (left; decide) | (right; rfl)

theorem asciiChunk_persianOfAscii (c : Char) (h : c.toNat < 128) :
    asciiChunk (persianOfAscii c) = [c] := by
  unfold persianOfAscii
  split_ifs with h0 h1 h2 h3 h4 h5 h6 h7 h8 h9
  · subst h0; decide
  · subst h1; decide
  · subst h2; decide
  · subst h3; decide
  · subst h4; decide
  · subst h5; decide
  · subst h6; decide
  · subst h7; decide
  · subst h8; decide
  · subst h9; decide
  · rw [asciiChunk, if_neg]
    rintro ⟨hlo, _⟩
    rw [char_le_iff_toNat] at hlo
    have : ('۰' : Char).toNat = 1776 := by decide
    omega

theorem toAsciiDigits_cons (c : Char) (l : List Char) :
    toAsciiDigits (c :: l) = asciiChunk c ++ toAsciiDigits l := by
  simp [toAsciiDigits]

theorem toAsciiDigits_map_persian (l : List Char) (h : ∀ c ∈ l, c.toNat < 128) :
    toAsciiDigits (l.map persianOfAscii) = l := by
  induction l with
  | nil => rfl
  | cons c rest ih =>
    rw [List.map_cons, toAsciiDigits_cons, asciiChunk_persianOfAscii c (h c (by simp)),
      ih (fun x hx => h x (List.mem_cons_of_mem c hx))]
    rfl

/-! ## Lemmas: substring search and splitting -/

theorem leadsWith_append_self : ∀ (p rest : List Char), leadsWith p (p ++ rest) = true := by
  intro p
  induction p with
  | nil => intro rest; rfl
  | cons c cs ih => intro rest; simp [leadsWith, ih]

theorem hasSub_of_leadsWith {n l : List Char} (h : leadsWith n l = true) :
    hasSub n l = true := by
  cases l with
  | nil =>
    cases n with
    | nil => rfl
    | cons c cs => exact absurd h (by simp [leadsWith])
  | cons c rest => simp [hasSub, h]

theorem hasSub_here (n rest : List Char) : hasSub n (n ++ rest) = true :=
  hasSub_of_leadsWith (leadsWith_append_self n rest)

theorem hasSub_append_right {n v : List Char} (h : hasSub n v = true) (u : List Char) :
    hasSub n (u ++ v) = true := by
  induction u with
  | nil => exact h
  | cons c us ih => simp [hasSub, ih]

theorem leadsWith_false_of_ne {s0 c : Char} (srest cs : List Char) (h : s0 ≠ c) :
    leadsWith (s0 :: srest) (c :: cs) = false := by
  have hd : decide (s0 = c) = false := by
    simp only [decide_eq_false_iff_not]
    exact h
  simp [leadsWith, hd]

theorem hasSub_false_of_notMem {s0 : Char} {srest l : List Char} (h : s0 ∉ l) :
    hasSub (s0 :: srest) l = false := by
  induction l with
  | nil => rfl
  | cons c rest ih =>
    have hc : s0 ≠ c := fun hcc => h (by simp [hcc])
    simp only [hasSub, Bool.or_eq_false_iff]
    constructor
    · exact leadsWith_false_of_ne srest rest hc
    · exact ih (fun hm => h (List.mem_cons_of_mem c hm))

theorem leadsWith_true_exists : ∀ {n l : List Char}, leadsWith n l = true →
    ∃ v, l = n ++ v := by
  intro n
  induction n with
  | nil => intro l _; exact ⟨l, rfl⟩
  | cons p ps ih =>
    intro l h
    cases l with
    | nil => exact absurd h (by simp [leadsWith])
    | cons c cs =>
      simp only [leadsWith, Bool.and_eq_true, decide_eq_true_eq] at h
      obtain ⟨v, hv⟩ := ih h.2
      exact ⟨v, by simp [h.1, hv]⟩

theorem hasSub_true_exists : ∀ {n l : List Char}, hasSub n l = true →
    ∃ u v, l = u ++ n ++ v := by
  intro n l
  induction l with
  | nil =>
    intro h
    have : n = [] := by
      cases n with
      | nil => rfl
      | cons c cs => exact absurd h (by simp [hasSub])
    exact ⟨[], [], by simp [this]⟩
  | cons c rest ih =>
    intro h
    simp only [hasSub, Bool.or_eq_true] at h
    rcases h with h | h
    · obtain ⟨v, hv⟩ := leadsWith_true_exists h
      exact ⟨[], v, by simp [hv]⟩
    · obtain ⟨u, v, huv⟩ := ih h
      exact ⟨c :: u, v, by simp [huv]⟩

theorem splitSepCore_ne_nil (s0 : Char) (srest : List Char) :
    ∀ (fuel : Nat) (l : List Char), splitSepCore s0 srest fuel l ≠ [] := by
  intro fuel l
  match fuel, l with
  | _, [] => simp [splitSepCore]
  | 0, c :: rest => simp [splitSepCore]
  | fuel + 1, c :: rest =>
    rw [splitSepCore]
    split <;> simp

theorem splitSepCore_no_occ {s0 : Char} {srest : List Char} :
    ∀ (l : List Char) (fuel : Nat), l.length ≤ fuel →
      hasSub (s0 :: srest) l = false → splitSepCore s0 srest fuel l = [l] := by
  intro l
  induction l with
  | nil => intro fuel _ _; cases fuel <;> rfl
  | cons c rest ih =>
    intro fuel hfuel hsub
    simp only [hasSub, Bool.or_eq_false_iff] at hsub
    match fuel, hfuel with
    | fuel + 1, hfuel =>
      rw [splitSepCore]
      rw [if_neg (by simp [hsub.1])]
      have := ih fuel (by simp at hfuel; omega) hsub.2
      simp [this]

theorem splitSepCore_single_cons (c0 : Char) :
    ∀ (a b : List Char) (fuel : Nat), (a ++ c0 :: b).length ≤ fuel → c0 ∉ a →
      ∃ fuel', b.length ≤ fuel' ∧
        splitSepCore c0 [] fuel (a ++ c0 :: b) = a :: splitSepCore c0 [] fuel' b := by
  intro a
  induction a with
  | nil =>
    intro b fuel hfuel _
    match fuel, hfuel with
    | fuel + 1, hfuel =>
      refine ⟨fuel, by simp at hfuel; omega, ?_⟩
      rw [List.nil_append, splitSepCore]
      rw [if_pos (by simp [leadsWith])]
      simp
  | cons c a' ih =>
    intro b fuel hfuel hnm
    have hc : c0 ≠ c := fun hcc => hnm (by simp [hcc.symm])
    match fuel, hfuel with
    | fuel + 1, hfuel =>
      obtain ⟨fuel', hb, heq⟩ := ih b fuel (by simp at hfuel ⊢; omega)
        (fun hm => hnm (List.mem_cons_of_mem c hm))
      refine ⟨fuel', hb, ?_⟩
      rw [List.cons_append, splitSepCore]
      rw [if_neg (by rw [leadsWith_false_of_ne [] (a' ++ c0 :: b) hc]; simp)]
      simp [heq]

theorem durMarker_eq : durMarker = 'م' :: 'د' :: 'ت' :: ':' :: [] := rfl

theorem splitAtMarker_front (rest : List Char) (hnm : hasSub durMarker rest = false) :
    splitAtMarker (durMarker ++ rest) = [[], rest] := by
  rw [splitAtMarker, pySplitSep]
  have hlen : (durMarker ++ rest).length = rest.length + 4 := by
    rw [durMarker_eq]; simp
  rw [hlen]
  rw [durMarker_eq] at hnm ⊢
  show splitSepCore 'م' ['د', 'ت', ':'] (rest.length + 3 + 1) ('م' :: 'د' :: 'ت' :: ':' :: rest)
    = [[], rest]
  rw [splitSepCore]
  rw [if_pos (by simp [leadsWith])]
  have hdrop : ('د' :: 'ت' :: ':' :: rest).drop (['د', 'ت', ':'] : List Char).length = rest := by
    simp
  rw [hdrop, splitSepCore_no_occ rest (rest.length + 3) (by omega) hnm]

/-! ## Lemmas: stripping and the first token -/

theorem pyStripL_space_cons (c : Char) (l : List Char) (h : pyIsSpace c = true) :
    pyStripL (c :: l) = pyStripL l := by
  simp [pyStripL, List.dropWhile_cons, h]

theorem firstWord_all_nonspace (w : List Char) (hne : w ≠ [])
    (h : ∀ c ∈ w, pyIsSpace c = false) : firstWord w = some w := by
  rw [firstWord, dropWhile_eq_self_of_all h]
  have htake : w.takeWhile (fun c => !pyIsSpace c) = w :=
    List.takeWhile_eq_self_iff.mpr (fun x hx => by simp [h x hx])
  simp only [htake]
  rw [if_neg (by simp [hne])]

/-! ## Lemmas: parsing a formatted duration back -/

/-- The characters a formatted duration is built from (before transliteration). -/
def fmtChar (c : Char) : Prop := c ∈ digitList ∨ c = ':' ∨ c = '-'

theorem fmtChar_ascii {c : Char} (h : fmtChar c) : c.toNat < 128 := by
  rcases h with h | h | h
  · fin_cases h <;> decide
  · subst h; decide
  · subst h; decide

theorem fmtChar_not_space {c : Char} (h : fmtChar c) : pyIsSpace c = false := by
  rcases h with h | h | h
  · fin_cases h <;> decide
  · subst h; decide
  · subst h; decide

theorem fmtChar_not_meem {c : Char} (h : fmtChar c) : c ≠ 'م' := by
  rcases h with h | h | h
  · fin_cases h <;> decide
  · subst h; decide
  · subst h; decide

theorem persianDigit_not_space {p : Char} (h : p ∈ persianDigitList) :
    pyIsSpace p = false := by
  fin_cases h <;> decide

theorem persianDigit_not_meem {p : Char} (h : p ∈ persianDigitList) : p ≠ 'م' := by
  fin_cases h <;> decide

theorem pyStrInt_mem (i : Int) : ∀ c ∈ pyStrInt i, c ∈ digitList ∨ c = '-' := by
  intro c hc
  rw [pyStrInt] at hc
  split at hc
  · rcases List.mem_cons.mp hc with rfl | hc
    · right; rfl
    · exact Or.inl (pyStrNat_mem _ c hc)
  · exact Or.inl (pyStrNat_mem _ c hc)

theorem pad2_mem_general (i : Int) : ∀ c ∈ pad2 i, c ∈ digitList ∨ c = '-' := by
  intro c hc
  rw [pad2] at hc
  split at hc
  · rcases List.mem_cons.mp hc with rfl | hc
    · left; decide
    · exact Or.inl (pyStrNat_mem _ c (by rwa [pyStrInt_nonneg _ (by omega)] at hc))
  · exact pyStrInt_mem i c hc

theorem pyStrInt_fmtChar (i : Int) : ∀ c ∈ pyStrInt i, fmtChar c := by
  intro c hc
  rcases pyStrInt_mem i c hc with h | h
  · exact Or.inl h
  · exact Or.inr (Or.inr h)

theorem pad2_fmtChar (i : Int) : ∀ c ∈ pad2 i, fmtChar c := by
  intro c hc
  rcases pad2_mem_general i c hc with h | h
  · exact Or.inl h
  · exact Or.inr (Or.inr h)

theorem pyStrInt_ne_nil (i : Int) : pyStrInt i ≠ [] := by
  rw [pyStrInt]
  split
  · simp
  · exact pyStrNat_ne_nil _

theorem pyStrInt_no_colon (i : Int) : ':' ∉ pyStrInt i := by
  intro h
  rcases pyStrInt_mem i ':' h with h | h
  · exact absurd h (by decide)
  · exact absurd h (by decide)

theorem pad2_no_colon (i : Int) : ':' ∉ pad2 i := by
  intro h
  rcases pad2_mem_general i ':' h with h | h
  · exact absurd h (by decide)
  · exact absurd h (by decide)

theorem emod_eq_mod (a b : Int) : a.emod b = a % b := rfl

theorem splitColon_three (A B C : List Char)
    (hA : ':' ∉ A) (hB : ':' ∉ B) (hC : ':' ∉ C) :
    pySplitSep ':' [] (A ++ ':' :: (B ++ ':' :: C)) = [A, B, C] := by
  rw [pySplitSep]
  obtain ⟨f1, hf1, heq1⟩ :=
    splitSepCore_single_cons ':' A (B ++ ':' :: C) (A ++ ':' :: (B ++ ':' :: C)).length
      le_rfl hA
  rw [heq1]
  obtain ⟨f2, hf2, heq2⟩ := splitSepCore_single_cons ':' B C f1 hf1 hB
  rw [heq2, splitSepCore_no_occ C f2 hf2 (hasSub_false_of_notMem hC)]

/-- Running the parser's try-block on a line of the shape
    `مدت: <transliterated token>` recovers the field computation on the
    untransliterated token. -/
theorem parseTry_marker_fmt (F : List Char) (hne : F ≠ [])
    (hclass : ∀ c ∈ F, fmtChar c) :
    parseTry (durMarker ++ ' ' :: F.map persianOfAscii)
      = parseFields (pySplitSep ':' [] F) := by
  have hP : ∀ p ∈ F.map persianOfAscii, pyIsSpace p = false ∧ p ≠ 'م' := by
    intro p hp
    obtain ⟨c, hc, rfl⟩ := List.mem_map.mp hp
    rcases persianOfAscii_cases c with hpd | hco
    · exact ⟨persianDigit_not_space hpd, persianDigit_not_meem hpd⟩
    · rw [hco]
      exact ⟨fmtChar_not_space (hclass c hc), fmtChar_not_meem (hclass c hc)⟩
  have hnm : hasSub durMarker (' ' :: F.map persianOfAscii) = false := by
    rw [durMarker_eq]
    apply hasSub_false_of_notMem
    intro hmem
    rcases List.mem_cons.mp hmem with h | h
    · exact absurd h (by decide)
    · exact (hP 'م' h).2 rfl
  rw [parseTry]
  rw [splitAtMarker_front _ hnm]
  have hgd : (([[], ' ' :: F.map persianOfAscii] : List (List Char))).getD 1 []
      = ' ' :: F.map persianOfAscii := rfl
  rw [hgd]
  rw [pyStripL_space_cons _ _ (by decide),
    pyStripL_eq_self_of_all (fun c hc => (hP c hc).1)]
  rw [firstWord_all_nonspace _ (by simp [hne]) (fun c hc => (hP c hc).1)]
  dsimp only
  rw [toAsciiDigits_map_persian _ (fun c hc => fmtChar_ascii (hclass c hc))]

/-- `parse_duration_to_seconds` on a whole `مدت: <token>` line. -/
theorem parse_marker_fmt (F : List Char) (hne : F ≠ [])
    (hclass : ∀ c ∈ F, fmtChar c) :
    parse_duration_to_seconds (marker_line (String.mk (F.map persianOfAscii)))
      = match parseFields (pySplitSep ':' [] F) with
        | some v => v
        | none => 0 := by
  have hdata : (marker_line (String.mk (F.map persianOfAscii))).data
      = durMarker ++ ' ' :: F.map persianOfAscii := by
    rw [marker_line, String.data_append]
    show ("مدت: " : String).data ++ F.map persianOfAscii = _
    rw [show ("مدت: " : String).data = durMarker ++ [' '] from rfl]
    simp
  rw [parse_duration_to_seconds, hdata, if_pos (hasSub_here _ _),
    parseTry_marker_fmt F hne hclass]

/-- The character-list form of `fmt_hms _ true`. -/
def hmsChars (tdUsec : Int) : List Char :=
  pyStrInt ((tdUsec.tdiv 1000000).fdiv 3600)
    ++ ':' :: (pad2 (((tdUsec.tdiv 1000000).emod 3600).fdiv 60)
    ++ ':' :: pad2 ((tdUsec.tdiv 1000000).emod 60))

theorem fmt_hms_true_eq (tdUsec : Int) :
    fmt_hms tdUsec true = String.mk ((hmsChars tdUsec).map persianOfAscii) := by
  rw [fmt_hms, hmsChars]
  simp

/-- The character-list form of `fmt_hm _ true`. -/
def hmChars (tdUsec : Int) : List Char :=
  pyStrInt ((tdUsec.fdiv 60000000).fdiv 60) ++ ':' :: pad2 ((tdUsec.fdiv 60000000).emod 60)

theorem fmt_hm_true_eq (tdUsec : Int) :
    fmt_hm tdUsec true = String.mk ((hmChars tdUsec).map persianOfAscii) := by
  rw [fmt_hm, hmChars]
  simp

theorem hmsChars_fmtChar (tdUsec : Int) : ∀ c ∈ hmsChars tdUsec, fmtChar c := by
  intro c hc
  rw [hmsChars] at hc
  rcases List.mem_append.mp hc with h | h
  · exact pyStrInt_fmtChar _ c h
  · rcases List.mem_cons.mp h with rfl | h
    · right; left; rfl
    · rcases List.mem_append.mp h with h | h
      · exact pad2_fmtChar _ c h
      · rcases List.mem_cons.mp h with rfl | h
        · right; left; rfl
        · exact pad2_fmtChar _ c h

theorem hmChars_fmtChar (tdUsec : Int) : ∀ c ∈ hmChars tdUsec, fmtChar c := by
  intro c hc
  rw [hmChars] at hc
  rcases List.mem_append.mp hc with h | h
  · exact pyStrInt_fmtChar _ c h
  · rcases List.mem_cons.mp h with rfl | h
    · right; left; rfl
    · exact pad2_fmtChar _ c h

theorem hmsChars_ne_nil (tdUsec : Int) : hmsChars tdUsec ≠ [] := by
  rw [hmsChars]
  intro h
  exact absurd (congrArg List.length h) (by simp)

theorem hmChars_ne_nil (tdUsec : Int) : hmChars tdUsec ≠ [] := by
  rw [hmChars]
  intro h
  exact absurd (congrArg List.length h) (by simp)

theorem hms_arith (u : Int) : u / 3600 * 3600 + u % 3600 / 60 * 60 + u % 60 = u := by
  omega

theorem hm_arith (u : Int) : u / 60 * 3600 + u % 60 * 60 = u * 60 := by
  omega

/-- Parsing the 3-field formatted duration recovers its integral seconds. -/
theorem parse_fmt_hms (tdUsec : Int) :
    parse_duration_to_seconds (marker_line (fmt_hms tdUsec true)) = tdUsec.tdiv 1000000 := by
  rw [fmt_hms_true_eq, parse_marker_fmt _ (hmsChars_ne_nil _) (hmsChars_fmtChar _)]
  rw [hmsChars, splitColon_three _ _ _ (pyStrInt_no_colon _) (pad2_no_colon _) (pad2_no_colon _)]
  set ts := tdUsec.tdiv 1000000 with hts
  have h3600 : (0 : Int) ≤ ts.emod 3600 := Int.emod_nonneg ts (by norm_num)
  have hfd : (0 : Int) ≤ (ts.emod 3600).fdiv 60 := by
    rw [Int.fdiv_eq_ediv _ (by norm_num)]
    exact Int.ediv_nonneg h3600 (by norm_num)
  have h60 : (0 : Int) ≤ ts.emod 60 := Int.emod_nonneg ts (by norm_num)
  rw [parseFields.eq_def]
  dsimp only
  rw [pyInt_pyStrInt_any, pyInt_pad2 _ hfd, pyInt_pad2 _ h60]
  dsimp only
  rw [Int.fdiv_eq_ediv _ (by norm_num), Int.fdiv_eq_ediv _ (by norm_num),
    emod_eq_mod, emod_eq_mod]
  clear_value ts
  exact hms_arith ts

/-- Parsing the legacy 2-field formatted duration recovers whole minutes. -/
theorem parse_fmt_hm (tdUsec : Int) :
    parse_duration_to_seconds (marker_line (fmt_hm tdUsec true))
      = tdUsec.fdiv 60000000 * 60 := by
  rw [fmt_hm_true_eq, parse_marker_fmt _ (hmChars_ne_nil _) (hmChars_fmtChar _)]
  rw [hmChars]
  have hsplit : pySplitSep ':' [] (pyStrInt ((tdUsec.fdiv 60000000).fdiv 60)
      ++ ':' :: pad2 ((tdUsec.fdiv 60000000).emod 60))
      = [pyStrInt ((tdUsec.fdiv 60000000).fdiv 60), pad2 ((tdUsec.fdiv 60000000).emod 60)] := by
    rw [pySplitSep]
    obtain ⟨f1, hf1, heq1⟩ := splitSepCore_single_cons ':'
      (pyStrInt ((tdUsec.fdiv 60000000).fdiv 60)) (pad2 ((tdUsec.fdiv 60000000).emod 60)) _
      le_rfl (pyStrInt_no_colon _)
    rw [heq1, splitSepCore_no_occ _ f1 hf1 (hasSub_false_of_notMem (pad2_no_colon _))]
  rw [hsplit]
  have h60 : (0 : Int) ≤ (tdUsec.fdiv 60000000).emod 60 :=
    Int.emod_nonneg _ (by norm_num)
  rw [parseFields.eq_def]
  dsimp only
  rw [pyInt_pyStrInt_any, pyInt_pad2 _ h60]
  dsimp only
  set tm := tdUsec.fdiv 60000000 with htm
  rw [Int.fdiv_eq_ediv _ (by norm_num), emod_eq_mod]
  clear_value tm
  exact hm_arith tm

/-! ## Claim C4: the format/parse round trip -/

/-- C4: for every non-negative integer second count `x`, parsing the 3-field
    text produced by `fmt_hms` for `x` (as it appears in a log line, after the
    duration marker) recovers `x` exactly; and the legacy 2-field text produced
    by the `H:MM` formatter `fmt_hm` for `x` parses back to `x` rounded down to
    whole minutes. -/
theorem parse_format_roundtrip (x : Nat) :
    parse_duration_to_seconds (marker_line (fmt_hms ((x : Int) * 1000000) true)) = (x : Int)
    ∧ parse_duration_to_seconds (marker_line (fmt_hm ((x : Int) * 1000000) true))
      = ((x / 60 * 60 : Nat) : Int) := by
  constructor
  · rw [parse_fmt_hms]
    exact Int.mul_tdiv_cancel _ (by norm_num)
  · rw [parse_fmt_hm]
    have h1 : ((x : Int) * 1000000).fdiv 60000000 = (x : Int) / 60 := by
      rw [Int.fdiv_eq_ediv _ (by norm_num)]
      omega
    rw [h1]
    omega

/-! ## Claim C6: the parser is total and maps malformed input to zero -/

/-- C6: `parse_duration_to_seconds` is a total function (exceptions inside the
    source's `try` are modelled by `parseTry = none` and mapped to zero), and
    every malformed line yields zero: a line without the duration marker, a
    line with no token after the marker (`seg.split()[0]` raises `IndexError`),
    any caught exception, and non-numeric fields (where `int()` raises
    `ValueError`, making the corresponding `parseFields` branch `none`). -/
theorem parse_tolerant_malformed_zero (line : String) :
    (hasSub durMarker line.data = false → parse_duration_to_seconds line = 0)
    ∧ (firstWord (pyStripL ((splitAtMarker line.data).getD 1 [])) = none →
        parse_duration_to_seconds line = 0)
    ∧ (parseTry line.data = none → parse_duration_to_seconds line = 0)
    ∧ (∀ a b c : List Char, pyInt a = none ∨ pyInt b = none ∨ pyInt c = none →
        parseFields [a, b, c] = none)
    ∧ (∀ a b : List Char, pyInt a = none ∨ pyInt b = none → parseFields [a, b] = none) := by
  refine ⟨?_, ?_, ?_, ?_, ?_⟩
  · intro h
    rw [parse_duration_to_seconds, h]
    simp
  · intro h
    by_cases hm : hasSub durMarker line.data
    · rw [parse_duration_to_seconds, if_pos hm, parseTry, h]
    · rw [parse_duration_to_seconds, if_neg hm]
  · intro h
    by_cases hm : hasSub durMarker line.data
    · rw [parse_duration_to_seconds, if_pos hm, h]
    · rw [parse_duration_to_seconds, if_neg hm]
  · intro a b c h
    rw [parseFields.eq_def]
    dsimp only
    rcases h with h | h | h
    · rw [h]
    · rw [h]
      cases pyInt a <;> cases pyInt c <;> rfl
    · rw [h]
      cases pyInt a <;> cases pyInt b <;> rfl
  · intro a b h
    rw [parseFields.eq_def]
    dsimp only
    rcases h with h | h
    · rw [h]
    · rw [h]
      cases pyInt a <;> rfl

/-- Witness for C6 at concrete malformed inputs. -/
theorem parse_tolerant_malformed_zero_witness :
    parse_duration_to_seconds "no marker here" = 0 :=
  (parse_tolerant_malformed_zero "no marker here").1 (by decide)

/-! ## Claim C7: calendar reference point and localized-digit parsing -/

/-- C7: `gregorian_to_jalali` maps 2023-03-21 to the Jalali New Year
    (1402, 1, 1), and lines containing the localized-digit duration tokens
    `۰:۴۸` and `۰:۰۰:۰۵` parse to 2880 and 5 seconds respectively. -/
theorem jalali_reference_and_localized_parse :
    gregorian_to_jalali 2023 3 21 = (1402, 1, 1)
    ∧ parse_duration_to_seconds "… مدت: ۰:۴۸" = 2880
    ∧ parse_duration_to_seconds "… مدت: ۰:۰۰:۰۵" = 5 :=
  ⟨by decide, by decide, by decide⟩

/-! ## Claim C9: the digit transliteration round trip -/

/-- C9: for every string of ASCII characters, translating ASCII digits to
    Persian digits (`PERSIAN_DIGITS`) and transliterating back with
    `_to_ascii_digits` is the identity; non-digit characters pass through both
    maps unmodified. -/
theorem digit_transliteration_roundtrip (s : String) (h : ∀ c ∈ s.data, c.toNat < 128) :
    to_ascii_digits (toPersianDigits s) = s := by
  rw [toPersianDigits, to_ascii_digits]
  show String.mk (toAsciiDigits (s.data.map persianOfAscii)) = s
  rw [toAsciiDigits_map_persian s.data h]

/-- Witness for C9 at a concrete ASCII string. -/
theorem digit_transliteration_roundtrip_witness :
    to_ascii_digits (toPersianDigits "2:45 abc") = "2:45 abc" :=
  digit_transliteration_roundtrip "2:45 abc" (by decide)

/-! ## Lemmas: the summary line contains no duration marker

The marker `مدت:` requires the two-character sequence `ت` `:` somewhere in the
line.  In a summary line every colon sits inside the formatted total (whose
characters are transliterated digits, `-` and `:`), never after a `ت`; this is
captured by the pairwise invariant `noTeColon`. -/

/-- Adjacent-pair invariant: no `ت` immediately followed by `:`. -/
def noTeColon (x y : Char) : Prop := ¬(x = 'ت' ∧ y = ':')

theorem noTeColon_of_x {x y : Char} (h : x ≠ 'ت') : noTeColon x y :=
  fun hc => h hc.1

theorem noTeColon_of_y {x y : Char} (h : y ≠ ':') : noTeColon x y :=
  fun hc => h hc.2

theorem chain_of_no_colon {l : List Char} (h : ∀ c ∈ l, c ≠ ':') :
    List.Chain' noTeColon l := by
  induction l with
  | nil => exact List.chain'_nil
  | cons c rest ih =>
    rw [List.chain'_cons']
    refine ⟨fun y hy => ?_, ih (fun x hx => h x (List.mem_cons_of_mem c hx))⟩
    exact noTeColon_of_y (h y (List.mem_cons_of_mem c (List.mem_of_mem_head? hy)))

theorem chain_of_no_te {l : List Char} (h : ∀ c ∈ l, c ≠ 'ت') :
    List.Chain' noTeColon l := by
  induction l with
  | nil => exact List.chain'_nil
  | cons c rest ih =>
    rw [List.chain'_cons']
    exact ⟨fun y hy => noTeColon_of_x (h c (by simp)),
      ih (fun x hx => h x (List.mem_cons_of_mem c hx))⟩

theorem no_marker_of_chain {l : List Char} (hch : List.Chain' noTeColon l) :
    hasSub durMarker l = false := by
  by_contra hne
  have htrue : hasSub durMarker l = true := by
    cases hcase : hasSub durMarker l
    · exact absurd hcase hne
    · rfl
  obtain ⟨u, v, huv⟩ := hasSub_true_exists htrue
  rw [huv, List.append_assoc] at hch
  have h2 := (List.chain'_append.mp hch).2.1
  have h3 := (List.chain'_append.mp h2).1
  rw [durMarker_eq] at h3
  have : noTeColon 'ت' ':' := by
    have h4 := (List.chain'_cons'.mp h3).2
    have h5 := (List.chain'_cons'.mp h4).2
    exact (List.chain'_cons'.mp h5).1 ':' rfl
  exact this ⟨rfl, rfl⟩

/-- Transfer of an elementwise property through `List.getD`. -/
theorem getD_prop {α : Type} (P : α → Prop) (l : List α) (n : Nat) (dflt : α)
    (hl : ∀ x ∈ l, P x) (hd : P dflt) : P (l.getD n dflt) := by
  by_cases h : n < l.length
  · rw [List.getD_eq_getElem l dflt h]
    exact hl _ (l.getElem_mem h)
  · rw [List.getD_eq_default l dflt (by omega)]
    exact hd

theorem fmtChar_not_te {c : Char} (h : fmtChar c) : c ≠ 'ت' := by
  rcases h with h | h | h
  · fin_cases h <;> decide
  · subst h; decide
  · subst h; decide

theorem persianDigit_not_te {p : Char} (h : p ∈ persianDigitList) : p ≠ 'ت' := by
  fin_cases h <;> decide

theorem persianDigit_not_colon {p : Char} (h : p ∈ persianDigitList) : p ≠ ':' := by
  fin_cases h <;> decide

theorem date_str_no_colon (d : PyDate) : ∀ c ∈ (persian_date_str d).data, c ≠ ':' := by
  intro c hc
  rw [persian_date_str] at hc
  have hc' : c ∈ ((persian_weekday_name d ++ " " ++ String.mk (pyStrInt
      (gregorian_to_jalali d.year d.month d.day).2.2) ++ " "
      ++ PERSIAN_MONTHS.getD ((gregorian_to_jalali d.year d.month d.day).2.1 - 1).toNat
        "").data.map persianOfAscii) := hc
  obtain ⟨c0, hc0, rfl⟩ := List.mem_map.mp hc'
  have hsrc : c0 ≠ ':' := by
    simp only [String.data_append, List.mem_append] at hc0
    have hwk : ∀ x ∈ (persian_weekday_name d).data, x ≠ ':' := by
      rw [persian_weekday_name]
      exact getD_prop (fun w => ∀ x ∈ w.data, x ≠ ':') PERSIAN_WEEKDAYS _ ""
        (by decide) (by decide)
    have hmo : ∀ x ∈ (PERSIAN_MONTHS.getD
        ((gregorian_to_jalali d.year d.month d.day).2.1 - 1).toNat "").data, x ≠ ':' :=
      getD_prop (fun w => ∀ x ∈ w.data, x ≠ ':') PERSIAN_MONTHS _ "" (by decide) (by decide)
    have hsp : ∀ x ∈ (" " : String).data, x ≠ ':' := by decide
    rcases hc0 with ((((h | h) | h) | h) | h)
    · exact hwk c0 h
    · exact hsp c0 h
    · intro hcc
      subst hcc
      rcases pyStrInt_mem _ _ h with hq | hq
      · exact absurd hq (by decide)
      · exact absurd hq (by decide)
    · exact hsp c0 h
    · exact hmo c0 h
  rcases persianOfAscii_cases c0 with h | h
  · exact persianDigit_not_colon h
  · rw [h]; exact hsrc

theorem fmt_hms_true_no_te (tdUsec : Int) : ∀ c ∈ (fmt_hms tdUsec true).data, c ≠ 'ت' := by
  intro c hc
  rw [fmt_hms_true_eq] at hc
  obtain ⟨c0, hc0, rfl⟩ := List.mem_map.mp hc
  rcases persianOfAscii_cases c0 with h | h
  · exact persianDigit_not_te h
  · rw [h]; exact fmtChar_not_te (hmsChars_fmtChar _ c0 hc0)

theorem summary_line_data (d : PyDate) (t : Int) :
    (summary_line d t).data = (persian_date_str d).data ++ ((" — " : String).data
      ++ ((fmt_hms (t * 1000000) true).data ++ (" مجموع" : String).data)) := by
  rw [summary_line]
  simp [String.data_append]

theorem summary_line_no_marker (d : PyDate) (t : Int) :
    hasSub durMarker (summary_line d t).data = false := by
  apply no_marker_of_chain
  rw [summary_line_data]
  rw [List.chain'_append]
  refine ⟨chain_of_no_colon (date_str_no_colon d), ?_, ?_⟩
  · rw [List.chain'_append]
    refine ⟨chain_of_no_colon (by decide), ?_, ?_⟩
    · rw [List.chain'_append]
      refine ⟨chain_of_no_te (fmt_hms_true_no_te _), chain_of_no_colon (by decide), ?_⟩
      · intro x hx y hy
        have hh : ((" مجموع" : String).data).head? = some ' ' := rfl
        rw [hh, Option.mem_some_iff] at hy
        subst hy
        exact noTeColon_of_y (by decide)
    · intro x hx y hy
      have hg : ((" — " : String).data).getLast? = some ' ' := by decide
      rw [hg, Option.mem_some_iff] at hx
      subst hx
      exact noTeColon_of_x (by decide)
  · intro x hx y hy
    have hh : ((" — " : String).data ++ ((fmt_hms (t * 1000000) true).data
        ++ (" مجموع" : String).data)).head? = some ' ' := rfl
    rw [hh, Option.mem_some_iff] at hy
    subst hy
    exact noTeColon_of_y (by decide)

theorem parse_summary_line_zero (d : PyDate) (t : Int) :
    parse_duration_to_seconds (summary_line d t) = 0 := by
  rw [parse_duration_to_seconds, summary_line_no_marker d t]
  simp

/-! ## Claim C8: summary lines contribute nothing to totals -/

/-- C8: a summary line as written by `write_daily_summary_for` never contains
    the segment duration marker `مدت:`, hence parses to zero seconds; appending
    it to any log file leaves `compute_total_seconds_for_file` unchanged. -/
theorem summary_line_inert (d : PyDate) (t : Int) (lines : List String) :
    pyContains "مدت:" (summary_line d t) = false
    ∧ parse_duration_to_seconds (summary_line d t) = 0
    ∧ compute_total_seconds_for_file (some (lines ++ [summary_line d t]))
      = compute_total_seconds_for_file (some lines) := by
  refine ⟨summary_line_no_marker d t, parse_summary_line_zero d t, ?_⟩
  rw [compute_total_seconds_for_file, compute_total_seconds_for_file]
  rw [List.map_append, List.sum_append]
  simp [parse_summary_line_zero d t]

/-! ## Lemmas: writing the summary line -/

theorem rstripNL_concat (l : List Char) (c : Char) (h : c ≠ '\n') :
    pyRstripNewlineL (l ++ [c]) = l ++ [c] := by
  rw [pyRstripNewlineL]
  have h1 : (l ++ [c]).reverse = c :: l.reverse := by simp
  rw [h1, List.dropWhile_cons, if_neg (by simp [h])]
  simp

theorem summary_line_last_char (d : PyDate) (t : Int) :
    ∃ l, (summary_line d t).data = l ++ ['ع'] := by
  rw [summary_line_data]
  have hs : (" مجموع" : String).data = [' ', 'م', 'ج', 'م', 'و'] ++ ['ع'] := rfl
  rw [hs]
  refine ⟨(persian_date_str d).data ++ ((" — " : String).data
    ++ ((fmt_hms (t * 1000000) true).data ++ [' ', 'م', 'ج', 'م', 'و'])), ?_⟩
  simp [List.append_assoc]

theorem write_line_summary (d : PyDate) (t : Int) (file : LogFile) :
    write_line (summary_line d t) file = some (file.getD [] ++ [summary_line d t]) := by
  rw [write_line]
  obtain ⟨l, hl⟩ := summary_line_last_char d t
  rw [hl, rstripNL_concat l 'ع' (by decide), ← hl]

/-! ## Claim C1: behaviour on a missing log file -/

/-- C1 counterexample: for the concrete date 2023-03-21 with no log file,
    `write_daily_summary_for` is not a no-op — it creates the file. -/
theorem summary_missing_file_not_noop :
    write_daily_summary_for ⟨2023, 3, 21⟩ none ≠ none := by decide

/-- C1 amended: for every date whose log file does not exist,
    `write_daily_summary_for` creates the file and writes exactly one
    zero-total summary line (no segment lines). -/
theorem summary_missing_file_writes_zero (d : PyDate) :
    write_daily_summary_for d none = some [summary_line d 0] := by
  have hc : pyContains sumMarker (last_nonempty_line (none : LogFile)) = false := by decide
  calc write_daily_summary_for d none = write_line (summary_line d 0) none := by
        rw [write_daily_summary_for, if_neg (by rw [hc]; exact Bool.false_ne_true)]
        rfl
    _ = some [summary_line d 0] := by rw [write_line_summary]; rfl

/-! ## Lemmas: the idempotence guard -/

theorem dropWhile_append_suffix (p : Char → Bool) (m0 : Char) (mrest : List Char)
    (hm : p m0 = false) :
    ∀ pre : List Char, ∃ pre', (pre ++ m0 :: mrest).dropWhile p = pre' ++ m0 :: mrest := by
  intro pre
  induction pre with
  | nil => exact ⟨[], by simp [List.dropWhile_cons, hm]⟩
  | cons c pre' ih =>
    by_cases hc : p c = true
    · obtain ⟨q, hq⟩ := ih
      exact ⟨q, by rw [List.cons_append, List.dropWhile_cons, if_pos hc]; exact hq⟩
    · refine ⟨c :: pre', ?_⟩
      rw [List.cons_append, List.dropWhile_cons, if_neg hc]

theorem pyStripL_keeps_marker_suffix (pre : List Char) :
    ∃ pre', pyStripL (pre ++ ("مجموع" : String).data)
      = pre' ++ ("مجموع" : String).data := by
  rw [pyStripL]
  have hm : ("مجموع" : String).data = 'م' :: ['ج', 'م', 'و', 'ع'] := rfl
  rw [hm]
  obtain ⟨q, hq⟩ := dropWhile_append_suffix pyIsSpace 'م' ['ج', 'م', 'و', 'ع'] (by decide) pre
  rw [hq]
  have h1 : (q ++ 'م' :: ['ج', 'م', 'و', 'ع']).reverse
      = 'ع' :: ('و' :: 'م' :: 'ج' :: 'م' :: q.reverse) := by simp
  rw [h1, List.dropWhile_cons, if_neg (by decide)]
  exact ⟨q, by simp⟩

theorem hasSub_self (n : List Char) : hasSub n n = true := by
  have := hasSub_here n []
  rwa [List.append_nil] at this

theorem pyContains_sumMarker_strip (s : String) (pre : List Char)
    (h : s.data = pre ++ ("مجموع" : String).data) :
    pyContains sumMarker (pyStrip s) = true := by
  show hasSub ("مجموع" : String).data (pyStripL s.data) = true
  rw [h]
  obtain ⟨pre', hq⟩ := pyStripL_keeps_marker_suffix pre
  rw [hq]
  exact hasSub_append_right (hasSub_self _) pre'

theorem summary_line_marker_suffix (d : PyDate) (t : Int) :
    (summary_line d t).data = ((persian_date_str d).data ++ ((" — " : String).data
      ++ ((fmt_hms (t * 1000000) true).data ++ [' ']))) ++ ("مجموع" : String).data := by
  rw [summary_line_data]
  have hs : (" مجموع" : String).data = [' '] ++ ("مجموع" : String).data := rfl
  rw [hs]
  simp [List.append_assoc]

theorem pyContains_summary_line (d : PyDate) (t : Int) :
    pyContains sumMarker (summary_line d t) = true := by
  show hasSub ("مجموع" : String).data (summary_line d t).data = true
  rw [summary_line_marker_suffix]
  have := hasSub_self ("مجموع" : String).data
  exact hasSub_append_right this _

theorem pyStrip_summary_ne_empty (d : PyDate) (t : Int) :
    pyStrip (summary_line d t) ≠ "" := by
  intro heq
  have hd := congrArg String.data heq
  have hd' : pyStripL (summary_line d t).data = [] := hd
  rw [summary_line_marker_suffix] at hd'
  obtain ⟨pre', hq⟩ := pyStripL_keeps_marker_suffix
    ((persian_date_str d).data ++ ((" — " : String).data
      ++ ((fmt_hms (t * 1000000) true).data ++ [' '])))
  rw [hq] at hd'
  exact absurd (congrArg List.length hd') (by simp)

theorem last_nonempty_append_summary (L : List String) (d : PyDate) (t : Int) :
    last_nonempty_line (some (L ++ [summary_line d t])) = pyStrip (summary_line d t) := by
  rw [last_nonempty_line]
  rw [List.map_append, List.filter_append]
  have h1 : ([summary_line d t].map pyStrip).filter (fun x => x ≠ "")
      = [pyStrip (summary_line d t)] := by
    simp [List.filter, pyStrip_summary_ne_empty d t]
  rw [h1, List.getLastD_concat]

theorem getLastD_mem_of_ne_nil {α : Type} (l : List α) (dflt : α) (h : l ≠ []) :
    l.getLastD dflt ∈ l := by
  rw [List.getLastD_eq_getLast?, List.getLast?_eq_getLast l h, Option.getD_some]
  exact List.getLast_mem h

theorem pyStripL_infix (l : List Char) : ∃ u v, l = u ++ pyStripL l ++ v := by
  obtain ⟨u, hu⟩ := List.dropWhile_suffix (l := l) pyIsSpace
  obtain ⟨w, hw⟩ := List.dropWhile_suffix (l := (l.dropWhile pyIsSpace).reverse) pyIsSpace
  refine ⟨u, w.reverse, ?_⟩
  rw [pyStripL]
  have h1 : l.dropWhile pyIsSpace
      = ((l.dropWhile pyIsSpace).reverse.dropWhile pyIsSpace).reverse ++ w.reverse := by
    have := congrArg List.reverse hw
    simpa using this.symm
  calc l = u ++ l.dropWhile pyIsSpace := hu.symm
    _ = u ++ (((l.dropWhile pyIsSpace).reverse.dropWhile pyIsSpace).reverse ++ w.reverse) := by
        rw [← h1]
    _ = u ++ ((l.dropWhile pyIsSpace).reverse.dropWhile pyIsSpace).reverse ++ w.reverse := by
        rw [List.append_assoc]

theorem hasSub_of_stripped {n : List Char} (l : List Char)
    (h : hasSub n (pyStripL l) = true) : hasSub n l = true := by
  obtain ⟨u, v, huv⟩ := pyStripL_infix l
  obtain ⟨a, b, hab⟩ := hasSub_true_exists h
  rw [huv, hab]
  have h1 : hasSub n (n ++ (b ++ v)) = true := hasSub_here n _
  have h2 := hasSub_append_right h1 (u ++ a)
  have heq : (u ++ a) ++ (n ++ (b ++ v)) = u ++ ((a ++ n) ++ b) ++ v := by
    simp [List.append_assoc]
  rwa [heq] at h2

theorem last_nonempty_marker_mem (lines : List String)
    (h : pyContains sumMarker (last_nonempty_line (some lines)) = true) :
    ∃ ln ∈ lines, pyContains sumMarker ln = true := by
  rw [last_nonempty_line] at h
  cases hfl : (lines.map pyStrip).filter (fun x => x ≠ "") with
  | nil =>
    rw [hfl] at h
    exact absurd h (by decide)
  | cons y ys =>
    rw [hfl] at h
    have hmem : ((y :: ys : List String).getLastD "") ∈ (y :: ys : List String) :=
      getLastD_mem_of_ne_nil _ _ (by simp)
    rw [← hfl] at hmem
    obtain ⟨hmem', _⟩ := List.mem_filter.mp hmem
    obtain ⟨ln, hln, hstrip⟩ := List.mem_map.mp hmem'
    refine ⟨ln, hln, ?_⟩
    rw [← hfl] at h
    rw [← hstrip] at h
    exact hasSub_of_stripped ln.data h

/-- The number of lines of a log file containing the summary marker. -/
def summaryCount (file : LogFile) : Nat :=
  ((file.getD []).filter (fun ln => pyContains sumMarker ln)).length

/-! ## Claim C2: idempotence of the daily summary -/

/-- C2: if the log file's last non-empty line already contains the summary
    marker, `write_daily_summary_for` writes nothing; the function is
    idempotent on every file state, and starting from a file with no summary
    line, calling it twice leaves exactly one summary line. -/
theorem write_daily_summary_idempotent (d : PyDate) (file : LogFile) :
    (pyContains sumMarker (last_nonempty_line file) = true →
      write_daily_summary_for d file = file)
    ∧ write_daily_summary_for d (write_daily_summary_for d file)
        = write_daily_summary_for d file
    ∧ (summaryCount file = 0 →
        summaryCount (write_daily_summary_for d (write_daily_summary_for d file)) = 1) := by
  have hskip : ∀ f : LogFile, pyContains sumMarker (last_nonempty_line f) = true →
      write_daily_summary_for d f = f := by
    intro f h
    rw [write_daily_summary_for, if_pos h]
  have happend : ∀ f : LogFile, pyContains sumMarker (last_nonempty_line f) = false →
      write_daily_summary_for d f
        = some (f.getD [] ++ [summary_line d (compute_total_seconds_for_file f)]) := by
    intro f h
    rw [write_daily_summary_for, if_neg (by rw [h]; exact Bool.false_ne_true),
      write_line_summary]
  have hcount_pos : ∀ lines : List String,
      pyContains sumMarker (last_nonempty_line (some lines)) = true →
      0 < summaryCount (some lines) := by
    intro lines h
    obtain ⟨ln, hln, hmark⟩ := last_nonempty_marker_mem lines h
    have hm : ln ∈ lines.filter (fun x => pyContains sumMarker x) :=
      List.mem_filter.mpr ⟨hln, hmark⟩
    rw [summaryCount]
    simp only [Option.getD_some]
    exact List.length_pos.mpr (List.ne_nil_of_mem hm)
  refine ⟨hskip file, ?_, ?_⟩
  · by_cases h : pyContains sumMarker (last_nonempty_line file) = true
    · rw [hskip file h, hskip file h]
    · have hfalse : pyContains sumMarker (last_nonempty_line file) = false := by
        cases hx : pyContains sumMarker (last_nonempty_line file)
        · rfl
        · exact absurd hx h
      have h1 := happend file hfalse
      have hlast : pyContains sumMarker (last_nonempty_line
          (write_daily_summary_for d file)) = true := by
        rw [h1, last_nonempty_append_summary]
        exact pyContains_sumMarker_strip _ _ (summary_line_marker_suffix d _)
      exact hskip _ hlast
  · intro h0
    have hfalse : pyContains sumMarker (last_nonempty_line file) = false := by
      cases hx : pyContains sumMarker (last_nonempty_line file)
      · rfl
      · rcases file with _ | lines
        · exact absurd hx (by decide)
        · have := hcount_pos lines hx
          omega
    have h1 := happend file hfalse
    have hlast : pyContains sumMarker (last_nonempty_line
        (write_daily_summary_for d file)) = true := by
      rw [h1, last_nonempty_append_summary]
      exact pyContains_sumMarker_strip _ _ (summary_line_marker_suffix d _)
    rw [hskip _ hlast, h1, summaryCount]
    simp only [Option.getD_some]
    rw [List.filter_append]
    have h2 : ([summary_line d (compute_total_seconds_for_file file)].filter
        (fun ln => pyContains sumMarker ln))
        = [summary_line d (compute_total_seconds_for_file file)] := by
      simp [List.filter, pyContains_summary_line]
    rw [h2, List.length_append]
    rw [summaryCount] at h0
    have h3 : ((file.getD []).filter (fun ln => pyContains sumMarker ln)).length = 0 := h0
    rw [h3]
    rfl

/-- Witness for C2 at a concrete file already ending with a summary line. -/
theorem write_daily_summary_idempotent_witness :
    write_daily_summary_for ⟨2023, 3, 21⟩ (some ["از ۸ تا ۹ — مدت: ۱:۰۰:۰۰", "x مجموع"])
      = some ["از ۸ تا ۹ — مدت: ۱:۰۰:۰۰", "x مجموع"] :=
  (write_daily_summary_idempotent ⟨2023, 3, 21⟩
    (some ["از ۸ تا ۹ — مدت: ۱:۰۰:۰۰", "x مجموع"])).1 (by decide)

/-! ## Lemmas: calendar arithmetic for the session logger -/

theorem dby_eq (y : Int) :
    daysBeforeYear y = 365 * (y - 1) + (y - 1) / 4 - (y - 1) / 100 + (y - 1) / 400 := by
  rw [daysBeforeYear, Int.fdiv_eq_ediv _ (by norm_num), Int.fdiv_eq_ediv _ (by norm_num),
    Int.fdiv_eq_ediv _ (by norm_num)]

theorem isLeapG_iff (y : Int) :
    isLeapG y = true ↔ ((y % 4 = 0 ∧ ¬ y % 100 = 0) ∨ y % 400 = 0) := by
  rw [isLeapG]
  simp only [emod_eq_mod, Bool.or_eq_true, Bool.and_eq_true, beq_iff_eq, bne_iff_ne]

theorem dby_succ (y : Int) (hy : 1 ≤ y) :
    daysBeforeYear (y + 1) = daysBeforeYear y + 365 + (if isLeapG y then 1 else 0) := by
  rw [dby_eq, dby_eq]
  split_ifs with hl
  · rw [isLeapG_iff] at hl
    rcases hl with ⟨h4, h100⟩ | h400 <;> omega
  · rw [isLeapG_iff] at hl
    push_neg at hl
    omega

theorem dby_mono (y y' : Int) (h : y ≤ y') : daysBeforeYear y ≤ daysBeforeYear y' := by
  rw [dby_eq, dby_eq]
  omega

theorem dim_pos (y m : Int) (h1 : 1 ≤ m) (h2 : m ≤ 12) : 1 ≤ daysInMonthG y m := by
  rw [daysInMonthG]
  split_ifs with h
  · norm_num
  · interval_cases m <;> decide

theorem dbm_succ (y m : Int) (h1 : 1 ≤ m) (h2 : m ≤ 12) :
    daysBeforeMonth y (m + 1) = daysBeforeMonth y m + daysInMonthG y m := by
  by_cases hl : isLeapG y = true
  · interval_cases m <;>
      simp [daysBeforeMonth, daysInMonthG, sumFirst, g_days_in_month, hl] <;> norm_num
  · have hl' : isLeapG y = false := by
      cases h : isLeapG y
      · rfl
      · exact absurd h hl
    interval_cases m <;>
      simp [daysBeforeMonth, daysInMonthG, sumFirst, g_days_in_month, hl'] <;> norm_num

theorem dbm_1 (y : Int) : daysBeforeMonth y 1 = 0 := by
  norm_num [daysBeforeMonth, sumFirst]

theorem dbm_13 (y : Int) :
    daysBeforeMonth y 13 = 365 + (if isLeapG y then 1 else 0) := by
  by_cases hl : isLeapG y = true <;>
    simp [daysBeforeMonth, sumFirst, g_days_in_month, hl] <;> norm_num

theorem dbm_12 (y : Int) :
    daysBeforeMonth y 12 = 334 + (if isLeapG y then 1 else 0) := by
  by_cases hl : isLeapG y = true <;>
    simp [daysBeforeMonth, sumFirst, g_days_in_month, hl] <;> norm_num

theorem dim_12 (y : Int) : daysInMonthG y 12 = 31 := by
  rw [daysInMonthG, if_neg (by norm_num)]
  decide

theorem dim_1 (y : Int) : daysInMonthG y 1 = 31 := by
  rw [daysInMonthG, if_neg (by norm_num)]
  decide

theorem dbm_mono (y a b : Int) (ha : 1 ≤ a) (hab : a ≤ b) (hb : b ≤ 13) :
    daysBeforeMonth y a ≤ daysBeforeMonth y b := by
  have H : ∀ n, a ≤ n → (n ≤ 13 → daysBeforeMonth y a ≤ daysBeforeMonth y n) :=
    @Int.le_induction (fun n => n ≤ 13 → daysBeforeMonth y a ≤ daysBeforeMonth y n) a
      (fun _ => le_refl _)
      (fun n hn ih h13 => by
        have hn12 : n ≤ 12 := by omega
        rw [dbm_succ y n (by omega) hn12]
        have hpos := dim_pos y n (by omega) hn12
        have hih := ih (by omega)
        omega)
  exact H b hab hb

theorem dbm_nonneg (y m : Int) (h1 : 1 ≤ m) (h2 : m ≤ 13) :
    0 ≤ daysBeforeMonth y m := by
  have := dbm_mono y 1 m (by norm_num) h1 h2
  rw [dbm_1] at this
  exact this

theorem dbm_day_le (d : PyDate) (h : ValidDate d) :
    daysBeforeMonth d.year d.month + d.day ≤ 365 + (if isLeapG d.year then 1 else 0) := by
  obtain ⟨hy, hm1, hm2, hd1, hd2⟩ := h
  have h1 : daysBeforeMonth d.year d.month + d.day
      ≤ daysBeforeMonth d.year (d.month + 1) := by
    rw [dbm_succ d.year d.month hm1 hm2]
    omega
  have h2 : daysBeforeMonth d.year (d.month + 1) ≤ daysBeforeMonth d.year 13 :=
    dbm_mono d.year (d.month + 1) 13 (by omega) (by omega) le_rfl
  rw [dbm_13] at h2
  omega

theorem dateOrd_bounds (d : PyDate) (h : ValidDate d) :
    daysBeforeYear d.year + 1 ≤ dateOrd d ∧ dateOrd d ≤ daysBeforeYear (d.year + 1) := by
  have hub := dbm_day_le d h
  obtain ⟨hy, hm1, hm2, hd1, hd2⟩ := h
  have hnn := dbm_nonneg d.year d.month hm1 (by omega)
  constructor
  · rw [dateOrd]
    omega
  · rw [dateOrd, dby_succ d.year hy]
    omega

theorem dateOrd_inj (d1 d2 : PyDate) (h1 : ValidDate d1) (h2 : ValidDate d2)
    (heq : dateOrd d1 = dateOrd d2) : d1 = d2 := by
  have keyYear : ∀ a b : PyDate, ValidDate a → ValidDate b → dateOrd a = dateOrd b →
      a.year < b.year → False := by
    intro a b ha hb hab hlt
    have b1 := (dateOrd_bounds a ha).2
    have b2 := (dateOrd_bounds b hb).1
    have hmono := dby_mono (a.year + 1) b.year (by omega)
    omega
  have hyy : d1.year = d2.year := by
    by_contra hne
    rcases lt_or_gt_of_ne hne with hlt | hlt
    · exact keyYear d1 d2 h1 h2 heq hlt
    · exact keyYear d2 d1 h2 h1 heq.symm hlt
  have keyMonth : ∀ a b : PyDate, ValidDate a → ValidDate b → a.year = b.year →
      dateOrd a = dateOrd b → a.month < b.month → False := by
    intro a b ha hb hyab hab hlt
    obtain ⟨hay, ham1, ham2, had1, had2⟩ := ha
    obtain ⟨hby, hbm1, hbm2, hbd1, hbd2⟩ := hb
    have e1 : daysBeforeMonth a.year a.month + a.day
        ≤ daysBeforeMonth a.year (a.month + 1) := by
      rw [dbm_succ a.year a.month ham1 ham2]
      omega
    have e2 : daysBeforeMonth a.year (a.month + 1) ≤ daysBeforeMonth a.year b.month := by
      have := dbm_mono a.year (a.month + 1) b.month (by omega) (by omega) (by omega)
      exact this
    rw [dateOrd, dateOrd, ← hyab] at hab
    omega
  have hmo : d1.month = d2.month := by
    by_contra hne
    rcases lt_or_gt_of_ne hne with hlt | hlt
    · exact keyMonth d1 d2 h1 h2 hyy heq hlt
    · exact keyMonth d2 d1 h2 h1 hyy.symm heq.symm hlt
  have hdd : d1.day = d2.day := by
    rw [dateOrd, dateOrd, hyy, hmo] at heq
    omega
  cases d1
  cases d2
  simp only at hyy hmo hdd
  rw [hyy, hmo, hdd]

theorem nextDate_valid (d : PyDate) (h : ValidDate d) : ValidDate (nextDate d) := by
  obtain ⟨hy, hm1, hm2, hd1, hd2⟩ := h
  rw [nextDate]
  split_ifs with hA hB
  · refine ⟨?_, ?_, ?_, ?_, ?_⟩ <;> dsimp only <;> omega
  · refine ⟨?_, ?_, ?_, ?_, ?_⟩ <;> dsimp only
    · exact hy
    · omega
    · omega
    · norm_num
    · exact dim_pos d.year (d.month + 1) (by omega) (by omega)
  · refine ⟨?_, ?_, ?_, ?_, ?_⟩ <;> dsimp only
    · omega
    · norm_num
    · norm_num
    · norm_num
    · rw [dim_1]
      norm_num

theorem dateOrd_nextDate (d : PyDate) (h : ValidDate d) :
    dateOrd (nextDate d) = dateOrd d + 1 := by
  obtain ⟨hy, hm1, hm2, hd1, hd2⟩ := h
  rw [nextDate]
  split_ifs with hA hB
  · rw [dateOrd, dateOrd]
    dsimp only
    omega
  · have hday : d.day = daysInMonthG d.year d.month := by omega
    rw [dateOrd, dateOrd]
    dsimp only
    rw [dbm_succ d.year d.month hm1 hm2]
    omega
  · have hm12 : d.month = 12 := by omega
    have hday : d.day = 31 := by
      rw [hm12, dim_12] at hd2 hA
      omega
    rw [dateOrd, dateOrd]
    dsimp only
    rw [dby_succ d.year hy, dbm_1, hm12, hday, dbm_12]
    omega

/-! ## Lemmas: the session-logging loop -/

theorem dtLt_iff_not_le (a b : PyDT) : dtLt a b ↔ ¬ dtLe b a := by
  rw [dtLt, dtLe]
  omega

theorem dtLe_refl (a : PyDT) : dtLe a a := by
  rw [dtLe]
  omega

theorem dtLt_imp_le {a b : PyDT} (h : dtLt a b) : dtLe a b := by
  rw [dtLt] at h
  rw [dtLe]
  omega

theorem pyMinDT_cases (e nm : PyDT) :
    (pyMinDT e nm = nm ∧ dtLt nm e) ∨ (pyMinDT e nm = e ∧ ¬ dtLt nm e) := by
  rw [pyMinDT]
  split_ifs with h
  · exact Or.inl ⟨rfl, h⟩
  · exact Or.inr ⟨rfl, h⟩

theorem nextMidnightAfter_date (cur : PyDT) :
    (nextMidnightAfter cur).date = nextDate cur.date := rfl

theorem nextMidnightAfter_tod (cur : PyDT) : (nextMidnightAfter cur).tod = 0 := rfl

theorem nextMidnightAfter_ord (cur : PyDT) (h : ValidDate cur.date) :
    dateOrd (nextMidnightAfter cur).date = dateOrd cur.date + 1 := by
  rw [nextMidnightAfter_date]
  exact dateOrd_nextDate cur.date h

theorem nextMidnightAfter_validDT (cur : PyDT) (h : ValidDate cur.date) :
    ValidDT (nextMidnightAfter cur) := by
  refine ⟨?_, ?_, ?_⟩
  · rw [nextMidnightAfter_date]
    exact nextDate_valid cur.date h
  · rw [nextMidnightAfter_tod]
  · rw [nextMidnightAfter_tod]
    norm_num

theorem segmentsAux_succ (e : PyDT) (f : Nat) (cur : PyDT) :
    segmentsAux e (f + 1) cur =
      if dtLe e (pyMinDT e (nextMidnightAfter cur))
      then [(cur, pyMinDT e (nextMidnightAfter cur))]
      else (cur, pyMinDT e (nextMidnightAfter cur))
        :: segmentsAux e f (pyMinDT e (nextMidnightAfter cur)) := rfl

/-- The main loop invariant of `log_session_range` under `start <= end`:
    one segment per calendar day, strictly increasing file days, every segment
    within its day, ending either inside the day or exactly at the next
    midnight. -/
theorem segmentsAux_spec (e : PyDT) (he : ValidDT e) :
    ∀ (fuel : Nat) (cur : PyDT), ValidDT cur → dtLe cur e →
    (dateOrd e.date - dateOrd cur.date).toNat < fuel →
    (segmentsAux e fuel cur).length = countMidnightsBetween cur e + 1
    ∧ ((segmentsAux e fuel cur).map (fun p => p.1)).head? = some cur
    ∧ List.Chain' (fun p q => dateOrd p.1.date < dateOrd q.1.date) (segmentsAux e fuel cur)
    ∧ ∀ p ∈ segmentsAux e fuel cur,
        ValidDT p.1 ∧ ValidDT p.2 ∧ dtLe p.1 p.2
        ∧ (p.2.date = p.1.date ∨ p.2 = ⟨nextDate p.1.date, 0⟩) := by
  intro fuel
  induction fuel with
  | zero => intro cur _ _ hmeas; omega
  | succ f ih =>
    intro cur hcur hle hmeas
    have hord : dateOrd (nextMidnightAfter cur).date = dateOrd cur.date + 1 :=
      nextMidnightAfter_ord cur hcur.1
    rw [segmentsAux_succ]
    rcases pyMinDT_cases e (nextMidnightAfter cur) with ⟨hmin, hlt⟩ | ⟨hmin, hnlt⟩
    · -- clipped at the next midnight: recursive case
      have hcond : ¬ dtLe e (pyMinDT e (nextMidnightAfter cur)) := by
        rw [hmin]
        exact (dtLt_iff_not_le _ _).mp hlt
      rw [if_neg hcond, hmin]
      have hnmvalid : ValidDT (nextMidnightAfter cur) :=
        nextMidnightAfter_validDT cur hcur.1
      have hlt' := hlt
      rw [dtLt] at hlt'
      have hmeas' : (dateOrd e.date - dateOrd (nextMidnightAfter cur).date).toNat < f := by
        rw [hord]
        rw [hord] at hlt'
        have hb := he.2.2
        omega
      obtain ⟨ihlen, ihhead, ihchain, ihmem⟩ :=
        ih (nextMidnightAfter cur) hnmvalid (dtLt_imp_le hlt) hmeas'
      refine ⟨?_, ?_, ?_, ?_⟩
      · rw [List.length_cons, ihlen]
        simp only [countMidnightsBetween]
        rw [hord]
        have h0 := nextMidnightAfter_tod cur
        rw [hord, h0] at hlt'
        split_ifs with h1 <;> omega
      · simp
      · rw [List.chain'_cons']
        refine ⟨?_, ihchain⟩
        intro q hq
        cases hh : (segmentsAux e f (nextMidnightAfter cur)).head? with
        | none => rw [hh] at hq; exact absurd hq (by simp)
        | some q0 =>
          rw [hh, Option.mem_some_iff] at hq
          subst hq
          have := List.head?_map (fun p => p.1) (segmentsAux e f (nextMidnightAfter cur))
          rw [hh, ihhead] at this
          have hq1 : q0.1 = nextMidnightAfter cur := by
            simpa using this.symm
          dsimp only
          rw [hq1, hord]
          omega
      · intro p hp
        rcases List.mem_cons.mp hp with rfl | hp
        · refine ⟨hcur, hnmvalid, ?_, Or.inr rfl⟩
          dsimp only
          rw [dtLe, hord]
          omega
        · exact ihmem p hp
    · -- final segment: break
      rw [if_pos (by rw [hmin]; exact dtLe_refl e), hmin]
      have hnlt' := hnlt
      rw [dtLt, hord, nextMidnightAfter_tod] at hnlt'
      have hle' := hle
      rw [dtLe] at hle'
      have hetod := he.2
      have hctod := hcur.2
      refine ⟨?_, by simp, by simp, ?_⟩
      · rw [List.length_singleton, countMidnightsBetween]
        split_ifs with h1 <;> omega
      · intro p hp
        rw [List.mem_singleton] at hp
        subst hp
        refine ⟨hcur, he, hle, ?_⟩
        have hcase : dateOrd e.date = dateOrd cur.date
            ∨ (dateOrd e.date = dateOrd cur.date + 1 ∧ e.tod = 0) := by
          omega
        rcases hcase with hc1 | ⟨hc2, hc3⟩
        · exact Or.inl (dateOrd_inj e.date cur.date he.1 hcur.1 hc1)
        · right
          have hd : e.date = nextDate cur.date := by
            apply dateOrd_inj e.date (nextDate cur.date) he.1 (nextDate_valid cur.date hcur.1)
            rw [dateOrd_nextDate cur.date hcur.1]
            exact hc2
          cases e with
          | mk ed et =>
            simp only at hd hc3
            rw [hd, hc3]

/-- The loop reaches its break within the fuel bound: any two sufficient fuel
    values produce the same trace. -/
theorem segmentsAux_fuel_invariant (e : PyDT) :
    ∀ (f1 f2 : Nat) (cur : PyDT), ValidDate cur.date →
    (dateOrd e.date - dateOrd cur.date).toNat < f1 →
    (dateOrd e.date - dateOrd cur.date).toNat < f2 →
    segmentsAux e f1 cur = segmentsAux e f2 cur := by
  intro f1
  induction f1 with
  | zero => intro f2 cur _ hm _; omega
  | succ f ih =>
    intro f2 cur hcur hm1 hm2
    match f2, hm2 with
    | f2 + 1, hm2 =>
      rw [segmentsAux_succ, segmentsAux_succ]
      rcases pyMinDT_cases e (nextMidnightAfter cur) with ⟨hmin, hlt⟩ | ⟨hmin, hnlt⟩
      · have hcond : ¬ dtLe e (pyMinDT e (nextMidnightAfter cur)) := by
          rw [hmin]
          exact (dtLt_iff_not_le _ _).mp hlt
        rw [if_neg hcond, hmin, if_neg ((dtLt_iff_not_le _ _).mp hlt)]
        have hord : dateOrd (nextMidnightAfter cur).date = dateOrd cur.date + 1 :=
          nextMidnightAfter_ord cur hcur
        have hlt' := hlt
        rw [dtLt, hord] at hlt'
        have hnv : ValidDate (nextMidnightAfter cur).date := by
          rw [nextMidnightAfter_date]
          exact nextDate_valid cur.date hcur
        rw [ih f2 (nextMidnightAfter cur) hnv (by rw [hord]; omega) (by rw [hord]; omega)]
      · rw [if_pos (by rw [hmin]; exact dtLe_refl e), if_pos (by rw [hmin]; exact dtLe_refl e)]

/-- Length bound and strict cursor advance, for any pair of datetimes. -/
theorem segmentsAux_bound (e : PyDT) :
    ∀ (fuel : Nat) (cur : PyDT), ValidDate cur.date →
    (dateOrd e.date - dateOrd cur.date).toNat < fuel →
    (segmentsAux e fuel cur).length ≤ (dateOrd e.date - dateOrd cur.date).toNat + 1
    ∧ ((segmentsAux e fuel cur).map (fun p => p.1)).head? = some cur
    ∧ List.Chain' dtLt ((segmentsAux e fuel cur).map (fun p => p.1)) := by
  intro fuel
  induction fuel with
  | zero => intro cur _ hm; omega
  | succ f ih =>
    intro cur hcur hm
    have hord : dateOrd (nextMidnightAfter cur).date = dateOrd cur.date + 1 :=
      nextMidnightAfter_ord cur hcur
    rw [segmentsAux_succ]
    rcases pyMinDT_cases e (nextMidnightAfter cur) with ⟨hmin, hlt⟩ | ⟨hmin, hnlt⟩
    · have hcond : ¬ dtLe e (pyMinDT e (nextMidnightAfter cur)) := by
        rw [hmin]
        exact (dtLt_iff_not_le _ _).mp hlt
      rw [if_neg hcond, hmin]
      have hlt' := hlt
      rw [dtLt, hord] at hlt'
      have hnv : ValidDate (nextMidnightAfter cur).date := by
        rw [nextMidnightAfter_date]
        exact nextDate_valid cur.date hcur
      obtain ⟨ihlen, ihhead, ihchain⟩ :=
        ih (nextMidnightAfter cur) hnv (by rw [hord]; omega)
      refine ⟨?_, by simp, ?_⟩
      · rw [List.length_cons]
        rw [hord] at ihlen
        omega
      · rw [List.map_cons, List.chain'_cons']
        refine ⟨?_, ihchain⟩
        intro q hq
        rw [List.head?_map, Option.mem_def, Option.map_eq_some'] at hq
        obtain ⟨q0, hq0, rfl⟩ := hq
        have : (segmentsAux e f (nextMidnightAfter cur)).head?.map (fun p => p.1)
            = some (nextMidnightAfter cur) := by
          rw [← List.head?_map]
          exact ihhead
        rw [hq0] at this
        simp only [Option.map_some', Option.some.injEq] at this
        rw [this, dtLt, hord]
        dsimp only
        omega
    · rw [if_pos (by rw [hmin]; exact dtLe_refl e), hmin]
      exact ⟨by simp, by simp, by simp⟩

/-! ## Claim C10: termination of `log_session_range` -/

/-- C10: the session-logging loop terminates for every pair of (valid) input
    datetimes, including `end < start`: running the loop with any fuel beyond
    `log_session_fuel` yields the same finished trace (the loop has reached
    its break), the number of iterations is bounded by the number of midnights
    up to the end timestamp plus one, and the cursor strictly advances at
    every step. -/
theorem log_session_terminates (s e : PyDT) (hs : ValidDT s) (he : ValidDT e) :
    (∀ k : Nat, segmentsAux e (log_session_fuel s e + k) s = log_session_segments s e)
    ∧ (log_session_segments s e).length ≤ (dateOrd e.date - dateOrd s.date).toNat + 1
    ∧ List.Chain' dtLt ((log_session_segments s e).map (fun p => p.1)) := by
  have hm : (dateOrd e.date - dateOrd s.date).toNat < log_session_fuel s e := by
    rw [log_session_fuel]
    omega
  refine ⟨?_, ?_, ?_⟩
  · intro k
    exact segmentsAux_fuel_invariant e (log_session_fuel s e + k) (log_session_fuel s e) s
      hs.1 (by omega) hm
  · exact (segmentsAux_bound e (log_session_fuel s e) s hs.1 hm).1
  · exact (segmentsAux_bound e (log_session_fuel s e) s hs.1 hm).2.2

/-- Witness for C10 at the concrete midnight-crossing session. -/
theorem log_session_terminates_witness :
    segmentsAux ⟨⟨2023, 3, 22⟩, 5000000⟩
        (log_session_fuel ⟨⟨2023, 3, 21⟩, 86390000000⟩ ⟨⟨2023, 3, 22⟩, 5000000⟩ + 7)
        ⟨⟨2023, 3, 21⟩, 86390000000⟩
      = log_session_segments ⟨⟨2023, 3, 21⟩, 86390000000⟩ ⟨⟨2023, 3, 22⟩, 5000000⟩ :=
  (log_session_terminates ⟨⟨2023, 3, 21⟩, 86390000000⟩ ⟨⟨2023, 3, 22⟩, 5000000⟩
    (by decide) (by decide)).1 7

/-! ## Claim C5: the one-second duration floor -/

/-- C5: for every valid start/end pair with `end <= start`, logging the
    session produces exactly one segment, written to the start day's file,
    whose duration is exactly the minimum unit of one second (10^6
    microseconds); and no segment produced by `log_session_range` ever
    carries a duration below one second — in particular never zero. -/
theorem min_duration_floor :
    (∀ s e : PyDT, ValidDT s → ValidDT e → dtLe e s →
      log_session_segments s e = [(s, e)]
      ∧ flooredDurationUsec s e = 1000000
      ∧ log_session_range s e = [(s.date, segment_line s e)])
    ∧ (∀ s e : PyDT, ∀ p ∈ log_session_segments s e,
        1000000 ≤ flooredDurationUsec p.1 p.2) := by
  constructor
  · intro s e hs he hle
    have hsub : dtSubUsec e s < 1000000 := by
      rw [dtSubUsec]
      rw [dtLe] at hle
      have h1 := hs.2
      have h2 := he.2
      omega
    have hseg : log_session_segments s e = [(s, e)] := by
      rw [log_session_segments, log_session_fuel, segmentsAux_succ]
      have hord : dateOrd (nextMidnightAfter s).date = dateOrd s.date + 1 :=
        nextMidnightAfter_ord s hs.1
      rcases pyMinDT_cases e (nextMidnightAfter s) with ⟨hmin, hlt⟩ | ⟨hmin, hnlt⟩
      · rw [dtLt, hord, nextMidnightAfter_tod] at hlt
        rw [dtLe] at hle
        have h2 := he.2
        omega
      · rw [if_pos (by rw [hmin]; exact dtLe_refl e), hmin]
    refine ⟨hseg, ?_, ?_⟩
    · rw [flooredDurationUsec, if_pos hsub]
    · rw [log_session_range, hseg]
      rfl
  · intro s e p _
    rw [flooredDurationUsec]
    split_ifs with h <;> omega

/-- Witness for C5 at a concrete empty session. -/
theorem min_duration_floor_witness :
    log_session_segments ⟨⟨2023, 3, 21⟩, 28800000000⟩ ⟨⟨2023, 3, 21⟩, 28800000000⟩
      = [(⟨⟨2023, 3, 21⟩, 28800000000⟩, ⟨⟨2023, 3, 21⟩, 28800000000⟩)]
    ∧ flooredDurationUsec ⟨⟨2023, 3, 21⟩, 28800000000⟩ ⟨⟨2023, 3, 21⟩, 28800000000⟩
      = 1000000 :=
  ⟨(min_duration_floor.1 ⟨⟨2023, 3, 21⟩, 28800000000⟩ ⟨⟨2023, 3, 21⟩, 28800000000⟩
      (by decide) (by decide) (by decide)).1,
   (min_duration_floor.1 ⟨⟨2023, 3, 21⟩, 28800000000⟩ ⟨⟨2023, 3, 21⟩, 28800000000⟩
      (by decide) (by decide) (by decide)).2.1⟩

/-! ## Claim C3: the midnight split invariant -/

/-- C3: for every valid start/end pair with `start <= end`,
    `log_session_range` writes exactly `N + 1` segment lines where `N` is the
    number of local midnights strictly between start and end; no two lines go
    to the same per-day log file; each segment starts on its file's calendar
    day and ends on that day or exactly at the following midnight.  For the
    concrete session 2023-03-21 23:59:50 → 2023-03-22 00:00:05, two files are
    written and their parsed duration totals are 10 and 5 seconds. -/
theorem log_session_split :
    (∀ s e : PyDT, ValidDT s → ValidDT e → dtLe s e →
      (log_session_range s e).length = countMidnightsBetween s e + 1
      ∧ (log_session_range s e).Pairwise (fun w w' => w.1 ≠ w'.1)
      ∧ ∀ p ∈ log_session_segments s e,
          p.1.date = (_log_single_segment p.1 p.2).1
          ∧ ValidDT p.1 ∧ ValidDT p.2 ∧ dtLe p.1 p.2
          ∧ (p.2.date = p.1.date ∨ p.2 = ⟨nextDate p.1.date, 0⟩))
    ∧ ((log_session_range ⟨⟨2023, 3, 21⟩, 86390000000⟩ ⟨⟨2023, 3, 22⟩, 5000000⟩).map
        (fun w => w.1) = [⟨2023, 3, 21⟩, ⟨2023, 3, 22⟩]
      ∧ compute_total_seconds_for_file (some (linesWrittenFor
          (log_session_range ⟨⟨2023, 3, 21⟩, 86390000000⟩ ⟨⟨2023, 3, 22⟩, 5000000⟩)
          ⟨2023, 3, 21⟩)) = 10
      ∧ compute_total_seconds_for_file (some (linesWrittenFor
          (log_session_range ⟨⟨2023, 3, 21⟩, 86390000000⟩ ⟨⟨2023, 3, 22⟩, 5000000⟩)
          ⟨2023, 3, 22⟩)) = 5) := by
  constructor
  · intro s e hs he hle
    have hm : (dateOrd e.date - dateOrd s.date).toNat < log_session_fuel s e := by
      rw [log_session_fuel]
      omega
    obtain ⟨hlen, hhead, hchain, hmem⟩ :=
      segmentsAux_spec e he (log_session_fuel s e) s hs hle hm
    refine ⟨?_, ?_, ?_⟩
    · rw [log_session_range, List.length_map]
      exact hlen
    · rw [log_session_range]
      have htrans : IsTrans (PyDT × PyDT)
          (fun p q => dateOrd p.1.date < dateOrd q.1.date) :=
        ⟨fun _ _ _ h1 h2 => lt_trans h1 h2⟩
      have hpw : (log_session_segments s e).Pairwise
          (fun p q => dateOrd p.1.date < dateOrd q.1.date) :=
        (@List.chain'_iff_pairwise _ _ htrans _).mp hchain
      refine List.Pairwise.map _ ?_ hpw
      intro a b hlt heq
      have : dateOrd (_log_single_segment a.1 a.2).1 = dateOrd (_log_single_segment b.1 b.2).1 := by
        rw [heq]
      rw [_log_single_segment, _log_single_segment] at this
      dsimp only at this
      omega
    · intro p hp
      exact ⟨rfl, hmem p hp⟩
  · refine ⟨by decide, by decide, by decide⟩

/-- Witness for C3's general invariant at the concrete midnight-crossing
    session. -/
theorem log_session_split_witness :
    (log_session_range ⟨⟨2023, 3, 21⟩, 86390000000⟩ ⟨⟨2023, 3, 22⟩, 5000000⟩).length
      = countMidnightsBetween ⟨⟨2023, 3, 21⟩, 86390000000⟩ ⟨⟨2023, 3, 22⟩, 5000000⟩ + 1 :=
  (log_session_split.1 ⟨⟨2023, 3, 21⟩, 86390000000⟩ ⟨⟨2023, 3, 22⟩, 5000000⟩
    (by decide) (by decide) (by decide)).1


end TimerApp
